import Mathlib

/-!
# Velocity: the GDFX disc-image reader (`XboxInternals/Disc/ISO.cpp`)

A shallow embedding of `class ISO` and a verification of its address
translation, header location, path resolution, directory listing and magic
classification.

Conventions of the embedding

* `std::string` is a `List Char`; `std::string::npos` is `none` in an
  `Option Nat`.
* `DWORD` is a `Nat` reduced `% 2^32`, `UINT64` a `Nat` reduced `% 2^64`,
  `int` is an `Int`.
* A C++ exception is the `error` side of an `Except Exn`; a loop that may not
  come to an end takes a fuel argument and yields `none` when the fuel is gone.
* The members of `class ISO` are the fields of the structure `ISO`; a member
  function takes the object and gives back the changed object.
-/

namespace ISO

/-! ## Machine arithmetic -/

/-- Truncation to a `DWORD`. -/
def toDWORD (x : Nat) : Nat := x % 2 ^ 32

/-- Truncation to a `UINT64`. -/
def toUINT64 (x : Nat) : Nat := x % 2 ^ 64

/-- Wrapping `UINT64` addition. -/
def add64 (a b : Nat) : Nat := (a + b) % 2 ^ 64

/-- Wrapping `UINT64` multiplication. -/
def mul64 (a b : Nat) : Nat := (a * b) % 2 ^ 64

/-- Wrapping `UINT64` subtraction. -/
def sub64 (a b : Nat) : Nat := (a % 2 ^ 64 + (2 ^ 64 - b % 2 ^ 64)) % 2 ^ 64

/-- Conversion of a `DWORD` to an `int` (two's complement). -/
def toInt32 (x : Nat) : Int :=
  if x % 2 ^ 32 < 2 ^ 31 then ((x % 2 ^ 32 : Nat) : Int) else ((x % 2 ^ 32 : Nat) : Int) - 2 ^ 32

/-- Conversion of an `int` to a `DWORD`. -/
def ofInt32 (x : Int) : Nat := (x % 2 ^ 32).toNat

/-! ## The stream -/

/-- Byte order of a stream (`EndianType`). -/
inductive EndianType where
  | BigEndian
  | LittleEndian
  deriving DecidableEq, Repr

/-- The random-access stream behind `BaseIO *io`: the bytes stored at every
address, the position cursor, the byte order, and a record of every read
issued so far as (address, length), oldest first. A read delivers exactly the
bytes stored at the cursor. -/
structure BaseStream where
  data : Nat → Nat
  pos : Nat
  endian : EndianType
  reads : List (Nat × Nat)

namespace BaseStream

/-- `io->SetPosition(address)`. -/
def SetPosition (io : BaseStream) (address : Nat) : BaseStream :=
  { io with pos := address }

/-- `io->GetPosition()`. -/
def GetPosition (io : BaseStream) : Nat := io.pos

/-- The `len` bytes stored from `address` on. -/
def bytesAt (io : BaseStream) (address len : Nat) : List Nat :=
  (List.range len).map (fun i => io.data (address + i))

/-- `io->ReadBytes(buffer, len)`: the buffer filled, and the stream after. -/
def ReadBytes (io : BaseStream) (len : Nat) : List Nat × BaseStream :=
  (io.bytesAt io.pos len,
   { io with pos := io.pos + len, reads := io.reads ++ [(io.pos, len)] })

/-- The value of four bytes in the given byte order. -/
def dwordOf (e : EndianType) (bs : List Nat) : Nat :=
  match e with
  | .BigEndian => bs.foldl (fun acc b => acc * 256 + b % 256) 0
  | .LittleEndian => bs.reverse.foldl (fun acc b => acc * 256 + b % 256) 0

/-- `io->ReadDword()`. -/
def ReadDword (io : BaseStream) : Nat × BaseStream :=
  let r := io.ReadBytes 4
  (dwordOf io.endian r.1, r.2)

end BaseStream

/-! ## Data model -/

/-- The header record `GdfxHeader`. -/
structure GdfxHeader where
  rootSector : Nat
  rootSize : Nat
  deriving DecidableEq, Repr

/-- The fields of a directory-entry record as they stand on disc. -/
structure GdfxRecord where
  sector : Nat
  size : Nat
  attributes : Nat
  nameLen : Nat
  name : List Char
  deriving DecidableEq, Repr

/-- The node `GdfxFileEntry` of the directory tree. -/
structure GdfxFileEntry where
  name : List Char
  nameLen : Nat
  attributes : Nat
  sector : Nat
  size : Nat
  address : Nat
  fileIndex : Nat
  filePath : List Char
  magic : Nat
  files : List GdfxFileEntry

/-- A default-constructed `GdfxFileEntry` (the local `GdfxFileEntry current;`). -/
def GdfxFileEntry.empty : GdfxFileEntry :=
  { name := [], nameLen := 0, attributes := 0, sector := 0, size := 0, address := 0,
    fileIndex := 0, filePath := [], magic := 0, files := [] }

/-- What `ISO.cpp` uses and does not define: the constants of the headers
`ISO.h` and `Gdfx.h`, the two record readers of `Gdfx.cpp`, and `std::sort` of
the C++ library, of which the standard fixes the contract (`SortsBy` below)
and not the result. Every definition below takes them as a parameter. -/
structure Decls where
  ISO_SECTOR_SIZE : Nat
  ISO_XGD1_ADDRESS : Nat
  ISO_XGD2_ADDRESS : Nat
  ISO_XGD3_ADDRESS : Nat
  ISO_COPY_BUFFER_SIZE : Nat
  GDFX_HEADER_MAGIC : List Nat
  GDFX_HEADER_MAGIC_LEN : Nat
  GdfxDirectory : Nat
  GdfxReadHeader : BaseStream → GdfxHeader × BaseStream
  GdfxReadFileEntry : BaseStream → Bool × GdfxRecord × BaseStream
  std_sort : (GdfxFileEntry → GdfxFileEntry → Bool) → List GdfxFileEntry → List GdfxFileEntry

/-- What a C++ `throw` carries: a `std::string`, or the `std::out_of_range` of
`std::string::at` and `std::string::substr`. -/
inductive Exn where
  | str (msg : List Char)
  | out_of_range
  deriving DecidableEq, Repr

end ISO

/-- The members of `class ISO`. -/
structure ISO where
  io : ISO.BaseStream
  gdfxHeaderAddress : Nat
  xgdVersion : List Char
  gdfxHeader : ISO.GdfxHeader
  root : List ISO.GdfxFileEntry
  didReadFileListing : Bool
  titleName : List Char

namespace ISO

/-! ## Address translation -/

/-- `ISO::SectorToAddress`:
`(UINT64)sector * ISO_SECTOR_SIZE + gdfxHeaderAddress - ISO_XGD1_ADDRESS`. -/
def SectorToAddress (d : Decls) (iso : ISO) (sector : Nat) : Nat :=
  sub64 (add64 (mul64 (toDWORD sector) d.ISO_SECTOR_SIZE) iso.gdfxHeaderAddress)
    d.ISO_XGD1_ADDRESS

/-! ## Header location -/

/-- `ISO::ValidGDFXHeader`: seek, read `GDFX_HEADER_MAGIC_LEN` bytes, `memcmp`
them with `GDFX_HEADER_MAGIC`. -/
def ValidGDFXHeader (d : Decls) (iso : ISO) (address : Nat) : Bool × ISO :=
  let r := (iso.io.SetPosition address).ReadBytes d.GDFX_HEADER_MAGIC_LEN
  (decide (r.1.take d.GDFX_HEADER_MAGIC_LEN = d.GDFX_HEADER_MAGIC.take d.GDFX_HEADER_MAGIC_LEN),
   { iso with io := r.2 })

/-- The tail of `ISO::ParseISO` once the header address is known: store the
address and the label, seek to the header and read it. -/
def parseHeaderAt (d : Decls) (iso : ISO) (address : Nat) (version : List Char) : ISO :=
  let r := d.GdfxReadHeader (iso.io.SetPosition address)
  { iso with gdfxHeaderAddress := address, xgdVersion := version, gdfxHeader := r.1, io := r.2 }

/-- `ISO::ParseISO`. -/
def ParseISO (d : Decls) (iso : ISO) : Except Exn ISO :=
  let v1 := ValidGDFXHeader d iso d.ISO_XGD1_ADDRESS
  if v1.1 then
    .ok (parseHeaderAt d v1.2 d.ISO_XGD1_ADDRESS "XGD1".toList)
  else
    let v2 := ValidGDFXHeader d v1.2 d.ISO_XGD2_ADDRESS
    if v2.1 then
      .ok (parseHeaderAt d v2.2 d.ISO_XGD2_ADDRESS "XGD2".toList)
    else
      let v3 := ValidGDFXHeader d v2.2 d.ISO_XGD3_ADDRESS
      if v3.1 then
        .ok (parseHeaderAt d v3.2 d.ISO_XGD3_ADDRESS "XGD3".toList)
      else
        .error (.str "ISO: Invalid Xbox 360 ISO.".toList)

/-! ## Path resolution -/

/-- `std::string::find(char)`; `none` is `npos`. -/
def strFind : List Char → Char → Option Nat
  | [], _ => none
  | x :: xs, c => if x = c then some 0 else (strFind xs c).map (· + 1)

/-- `std::string::at(i)`, which throws `std::out_of_range` when `i >= size()`. -/
def strAt (s : List Char) (i : Nat) : Except Exn Char :=
  match s.get? i with
  | some c => .ok c
  | none => .error .out_of_range

/-- `std::string::substr(pos, count)`, which throws `std::out_of_range` when
`pos > size()`; `count = none` is the default `npos`. -/
def substr (s : List Char) (pos : Nat) (count : Option Nat) : Except Exn (List Char) :=
  if pos > s.length then .error .out_of_range
  else
    match count with
    | none => .ok (s.drop pos)
    | some n => .ok ((s.drop pos).take n)

/-- The `size_t` value `separatorIndex + 1`: `npos + 1` wraps to `0`. -/
def indexSucc : Option Nat → Nat
  | none => 0
  | some i => i + 1

/-- Modelled from the spec: `Utils::NormalizeFilePath` is not under `src/`; the
spec says it "normalizes path separators", and `GetFileEntry` splits at the
backslash, so a forward slash becomes a backslash. -/
def NormalizeFilePath (path : List Char) : List Char :=
  path.map (fun c => if c = '/' then '\\' else c)

/-- The message of the `throw` in `ISO::GetFileEntry`. -/
def unableToFind (filePath : List Char) : Exn :=
  .str ("ISO: Unable to find file ".toList ++ filePath)

/-- The `while (true)` loop of `ISO::GetFileEntry`. The inner `for` loop stops
at the first entry of `curDirectory` whose name is `entryName`, which is what
`List.find?` gives. `curDirectoryEntry` is `none` for `NULL`. -/
def GetFileEntry.loop (filePath : List Char) :
    Nat → List GdfxFileEntry → List Char → Option Nat → Option GdfxFileEntry →
      Option (Except Exn GdfxFileEntry)
  | 0, _, _, _, _ => none
  | fuel + 1, curDirectory, normalizedPath, separatorIndex, curDirectoryEntry =>
    match substr normalizedPath 0 separatorIndex with
    | .error e => some (.error e)
    | .ok entryName =>
      let found := curDirectory.find? (fun curEntry => decide (curEntry.name = entryName))
      match found, separatorIndex with
      | some curEntry, none => some (.ok curEntry)
      | _, _ =>
        let curDirectoryEntry :=
          match found with
          | some curEntry => some curEntry
          | none => curDirectoryEntry
        match curDirectoryEntry with
        | none => some (.error (unableToFind filePath))
        | some dir =>
          match substr normalizedPath (indexSucc separatorIndex) none with
          | .error e => some (.error e)
          | .ok rest =>
            GetFileEntry.loop filePath fuel dir.files rest (strFind rest '\\') (some dir)

/-- `ISO::GetFileEntry`. `fuel` bounds the number of turns of the loop; the
result is `none` when the loop is still running after that many turns. The
index `size() - 1` of an empty string is `SIZE_MAX` in the source and `0` here,
and `at` throws at both. -/
def GetFileEntry (fuel : Nat) (iso : ISO) (filePath : List Char) :
    Option (Except Exn GdfxFileEntry) :=
  let normalizedPath := NormalizeFilePath filePath
  let separatorIndex := strFind normalizedPath '\\'
  match strAt normalizedPath (normalizedPath.length - 1) with
  | .error e => some (.error e)
  | .ok last =>
    match (if last = '\\' then substr normalizedPath 0 (some (normalizedPath.length - 1))
           else .ok normalizedPath) with
    | .error e => some (.error e)
    | .ok normalizedPath =>
      GetFileEntry.loop filePath fuel iso.root normalizedPath separatorIndex none

/-! ## Magic classification -/

/-- Modelled from the spec: `IsoIO` is not under `src/`; the spec calls it a
read view over the entry's content. Its length is the entry's size. -/
def IsoStream.Length (entry : GdfxFileEntry) : Nat := entry.size

/-- Modelled from the spec: `IsoIO::ReadDword` on a fresh big-endian view reads
the first four bytes of the entry's content, which lie at
`SectorToAddress(entry->sector)` of the underlying stream. -/
def IsoStream.ReadDword (d : Decls) (iso : ISO) (entry : GdfxFileEntry) : Nat × ISO :=
  let r := (iso.io.SetPosition (SectorToAddress d iso entry.sector)).ReadBytes 4
  (BaseStream.dwordOf .BigEndian r.1, { iso with io := r.2 })

/-- `ISO::GetFileMagic`: the value returned, the entry after, the object after. -/
def GetFileMagic (d : Decls) (iso : ISO) (entry : GdfxFileEntry) :
    Nat × GdfxFileEntry × ISO :=
  let lowercasePath := entry.filePath.map Char.toLower
  if lowercasePath = [] ∨ lowercasePath = "$systemupdate/".toList then
    if IsoStream.Length entry ≥ 4 then
      let r := IsoStream.ReadDword d iso entry
      (r.1, { entry with magic := r.1 }, r.2)
    else
      (0, { entry with magic := 0 }, iso)
  else
    (0, { entry with magic := 0 }, iso)

/-! ## Directory listing -/

/-- Whether the entry carries the directory bit: `attributes & GdfxDirectory`. -/
def isDirectory (d : Decls) (e : GdfxFileEntry) : Bool :=
  e.attributes &&& d.GdfxDirectory != 0

/-- Modelled from the spec: `DirectoryFirstCompareGdfxEntries` is not under
`src/`; the spec sorts on the "is directory" key alone, directories first. -/
def DirectoryFirstCompareGdfxEntries (d : Decls) (a b : GdfxFileEntry) : Bool :=
  isDirectory d a && !isDirectory d b

/-- The size of a record as line 249 of `ISO.cpp` computes it:
`(current.nameLen + 0x11) & 0xFFFFFFFC`. -/
def entryStride (nameLen : Nat) : Nat :=
  toDWORD (nameLen + 0x11) &&& 0xFFFFFFFC

/-- The locals of `ISO::ReadFileListing`, its parameters among them. -/
structure Locals where
  entryList : List GdfxFileEntry
  sector : Nat
  size : Int
  path : List Char
  entryAddress : Nat
  current : GdfxFileEntry
  bytesLeft : Nat

/-- What `ISO::ReadFileListing` leaves behind: the object, `*entryList`, and
`pushed`, which is `*entryList` as it stood right before the closing
`std::sort`, that is, in the order of the `push_back`s. -/
structure Listing where
  iso : ISO
  entryList : List GdfxFileEntry
  pushed : List GdfxFileEntry

/-- The closing `std::sort(entryList->begin(), entryList->end(),
DirectoryFirstCompareGdfxEntries)` of every exit. -/
def ReadFileListing.finish (d : Decls) (iso : ISO) (entryList : List GdfxFileEntry) : Listing :=
  { iso := iso, entryList := d.std_sort (DirectoryFirstCompareGdfxEntries d) entryList,
    pushed := entryList }

/-- Lines 215 to 220: seek to the listing and set up the locals. -/
def ReadFileListing.enter (d : Decls) (iso : ISO) (entryList : List GdfxFileEntry)
    (sector : Nat) (size : Int) (path : List Char) : ISO × Locals :=
  let entryAddress := SectorToAddress d iso sector
  ({ iso with io := iso.io.SetPosition entryAddress },
   { entryList := entryList, sector := toDWORD sector, size := size, path := path,
     entryAddress := entryAddress, current := GdfxFileEntry.empty, bytesLeft := ofInt32 size })

/-- Lines 243 to 277, the part of the loop body after the recursion: classify
and append the record, step to the next one, look for the sentinel. The result
is the finished listing (`Sum.inl`) or the state at the next turn (`Sum.inr`).
`ISO_SECTOR_SIZE` is taken to be an `int` constant. -/
def ReadFileListing.advance (d : Decls) (iso : ISO) (L : Locals) (current : GdfxFileEntry) :
    Listing ⊕ (ISO × Locals) :=
  let current := { current with filePath := L.path }
  let m := GetFileMagic d iso current
  let current := m.2.1
  let iso := m.2.2
  let entryList := L.entryList ++ [current]
  let entryAddress := add64 L.entryAddress (entryStride current.nameLen)
  let iso := { iso with io := iso.io.SetPosition entryAddress }
  let r := iso.io.ReadDword
  let nextBytes := r.1
  let iso := { iso with io := r.2 }
  if nextBytes = 0xFFFFFFFF then
    if L.size - (d.ISO_SECTOR_SIZE : Int) ≤ 0 then
      .inl (ReadFileListing.finish d iso entryList)
    else
      let size := L.size - (d.ISO_SECTOR_SIZE : Int)
      let sector := toDWORD (L.sector + 1)
      let entryAddress := SectorToAddress d iso sector
      let bytesLeft := toDWORD (sub64 L.bytesLeft (sub64 entryAddress current.address))
      .inr ({ iso with io := iso.io.SetPosition entryAddress },
            { L with entryList := entryList, sector := sector, size := size,
                     entryAddress := entryAddress, bytesLeft := bytesLeft,
                     current := { current with files := [] } })
  else
    let bytesLeft := toDWORD (sub64 L.bytesLeft (sub64 entryAddress current.address))
    .inr ({ iso with io := iso.io.SetPosition entryAddress },
          { L with entryList := entryList, entryAddress := entryAddress, bytesLeft := bytesLeft,
                   current := { current with files := [] } })

/-- The `while (bytesLeft != 0)` loop of `ISO::ReadFileListing`, with the
recursive call for a non-empty directory. `fuel` bounds the turns of the loop
and the depth of the recursion together; the result is `none` when it is gone. -/
def ReadFileListing.loop (d : Decls) : Nat → ISO → Locals → Option Listing
  | 0, _, _ => none
  | fuel + 1, iso, L =>
    if L.bytesLeft = 0 then
      some (ReadFileListing.finish d iso L.entryList)
    else
      let current := { L.current with address := iso.io.GetPosition, fileIndex := 0 }
      let r := d.GdfxReadFileEntry iso.io
      let current := { current with sector := r.2.1.sector, size := r.2.1.size,
                                    attributes := r.2.1.attributes, nameLen := r.2.1.nameLen,
                                    name := r.2.1.name }
      let iso := { iso with io := r.2.2 }
      if r.1 = false ∧ L.size ≠ 0 then
        some (ReadFileListing.finish d iso L.entryList)
      else if isDirectory d current = true ∧ current.size ≠ 0 then
        let seekAddr := iso.io.GetPosition
        let sub := ReadFileListing.enter d iso current.files current.sector
          (toInt32 current.size) (L.path ++ current.name ++ ['/'])
        match ReadFileListing.loop d fuel sub.1 sub.2 with
        | none => none
        | some inner =>
          let iso := { inner.iso with io := inner.iso.io.SetPosition seekAddr }
          match ReadFileListing.advance d iso L { current with files := inner.entryList } with
          | .inl done => some done
          | .inr next => ReadFileListing.loop d fuel next.1 next.2
      else
        match ReadFileListing.advance d iso L current with
        | .inl done => some done
        | .inr next => ReadFileListing.loop d fuel next.1 next.2

/-- `ISO::ReadFileListing(entryList, sector, size, path)`. -/
def ReadFileListing (d : Decls) (fuel : Nat) (iso : ISO) (entryList : List GdfxFileEntry)
    (sector : Nat) (size : Int) (path : List Char) : Option Listing :=
  let s := ReadFileListing.enter d iso entryList sector size path
  ReadFileListing.loop d fuel s.1 s.2

/-- `ISO::GetFileListing`. -/
def GetFileListing (d : Decls) (fuel : Nat) (iso : ISO) : Option ISO :=
  if iso.didReadFileListing = false then
    let iso := { iso with didReadFileListing := true }
    match ReadFileListing d fuel iso iso.root iso.gdfxHeader.rootSector
        (toInt32 iso.gdfxHeader.rootSize) [] with
    | none => none
    | some r => some { r.iso with root := r.entryList }
  else
    some iso

/-! ## Specification-side notions -/

/-- The bytes at `address` are the GDFX signature. -/
def holdsSignature (d : Decls) (io : BaseStream) (address : Nat) : Prop :=
  io.bytesAt address d.GDFX_HEADER_MAGIC_LEN = d.GDFX_HEADER_MAGIC.take d.GDFX_HEADER_MAGIC_LEN

instance (d : Decls) (io : BaseStream) (address : Nat) : Decidable (holdsSignature d io address) := by
  unfold holdsSignature; infer_instance

/-- The stream after signature reads at `offsets`, in that order, and nothing
else: every read is on record and the cursor stands behind the last one. -/
def probed (d : Decls) (io : BaseStream) (offsets : List Nat) : BaseStream :=
  { io with
    pos := (offsets.getLast?.map (· + d.GDFX_HEADER_MAGIC_LEN)).getD io.pos
    reads := io.reads ++ offsets.map (fun a => (a, d.GDFX_HEADER_MAGIC_LEN)) }

/-- The constants of `ISO.h` are sound for address translation: no candidate
offset lies below the first, and the address of every 32-bit sector fits 64
bits. -/
def Decls.AddressesFit (d : Decls) : Prop :=
  d.ISO_XGD1_ADDRESS ≤ d.ISO_XGD2_ADDRESS ∧ d.ISO_XGD1_ADDRESS ≤ d.ISO_XGD3_ADDRESS ∧
  (2 ^ 32 - 1) * d.ISO_SECTOR_SIZE + d.ISO_XGD1_ADDRESS < 2 ^ 64 ∧
  (2 ^ 32 - 1) * d.ISO_SECTOR_SIZE + d.ISO_XGD2_ADDRESS < 2 ^ 64 ∧
  (2 ^ 32 - 1) * d.ISO_SECTOR_SIZE + d.ISO_XGD3_ADDRESS < 2 ^ 64

instance (d : Decls) : Decidable d.AddressesFit := by
  unfold Decls.AddressesFit; infer_instance

/-- What the C++ standard promises of `std::sort(first, last, comp)`: the range
afterwards is a permutation of the range before, and no element of it is
ordered by `comp` before an element that precedes it. The relative order of
equivalent elements is left open. -/
def SortsBy (sort : (GdfxFileEntry → GdfxFileEntry → Bool) → List GdfxFileEntry → List GdfxFileEntry)
    (comp : GdfxFileEntry → GdfxFileEntry → Bool) : Prop :=
  ∀ l, (sort comp l).Perm l ∧ (sort comp l).Pairwise (fun a b => comp b a = false)

/-! ## Sample declarations, for evaluating the definitions -/

/-- Insertion of `x` in front of the first element that does not come before it. -/
def sortInsert (comp : GdfxFileEntry → GdfxFileEntry → Bool) (x : GdfxFileEntry) :
    List GdfxFileEntry → List GdfxFileEntry
  | [] => [x]
  | y :: ys => if comp y x then y :: sortInsert comp x ys else x :: y :: ys

/-- One `std::sort`: an insertion sort that keeps equivalent elements in their
order, as the sort of the GNU C++ library does on a range of at most 16
elements. -/
def stableSort (comp : GdfxFileEntry → GdfxFileEntry → Bool) :
    List GdfxFileEntry → List GdfxFileEntry
  | [] => []
  | x :: xs => sortInsert comp x (stableSort comp xs)

/-- A record reader over the GDFX layout: two 16-bit subtree links, sector,
size (little-endian), attribute byte, name length, name. A record that starts
with `0xFFFF 0xFFFF` is no record. -/
def sampleReadFileEntry (io : BaseStream) : Bool × GdfxRecord × BaseStream :=
  let h := io.ReadBytes 14
  let b := fun i => h.1.getD i 0
  let nameLen := b 13
  let n := h.2.ReadBytes nameLen
  (decide (¬ (b 0 = 0xFF ∧ b 1 = 0xFF ∧ b 2 = 0xFF ∧ b 3 = 0xFF)),
   { sector := BaseStream.dwordOf .LittleEndian [b 4, b 5, b 6, b 7],
     size := BaseStream.dwordOf .LittleEndian [b 8, b 9, b 10, b 11],
     attributes := b 12, nameLen := nameLen, name := n.1.map Char.ofNat },
   n.2)

/-- A header reader: root sector and root size, little-endian, behind the
signature. -/
def sampleReadHeader (io : BaseStream) : GdfxHeader × BaseStream :=
  let r := ({ io with pos := io.pos + 4 } : BaseStream).ReadBytes 8
  let b := fun i => r.1.getD i 0
  ({ rootSector := BaseStream.dwordOf .LittleEndian [b 0, b 1, b 2, b 3],
     rootSize := BaseStream.dwordOf .LittleEndian [b 4, b 5, b 6, b 7] }, r.2)

/-- Sample values for the declarations: small sectors and a four-byte signature. -/
def sampleDecls : Decls :=
  { ISO_SECTOR_SIZE := 0x40, ISO_XGD1_ADDRESS := 0x100, ISO_XGD2_ADDRESS := 0x200,
    ISO_XGD3_ADDRESS := 0x300, ISO_COPY_BUFFER_SIZE := 0x10,
    GDFX_HEADER_MAGIC := [0x47, 0x44, 0x46, 0x58], GDFX_HEADER_MAGIC_LEN := 4,
    GdfxDirectory := 0x10,
    GdfxReadHeader := sampleReadHeader, GdfxReadFileEntry := sampleReadFileEntry,
    std_sort := stableSort }

/-- A stream holding `bytes` from address `base` on and zeroes elsewhere. -/
def streamOf (base : Nat) (bytes : List Nat) : BaseStream :=
  { data := fun a => if a < base then 0 else bytes.getD (a - base) 0,
    pos := 0, endian := .LittleEndian, reads := [] }

/-- A freshly constructed object over a stream. -/
def freshISO (io : BaseStream) : ISO :=
  { io := io, gdfxHeaderAddress := 0, xgdVersion := [], gdfxHeader := ⟨0, 0⟩, root := [],
    didReadFileListing := false, titleName := [] }

/-- The entry `e` lies in the tree `l`, at any depth. -/
inductive InTree : GdfxFileEntry → List GdfxFileEntry → Prop
  | here {e : GdfxFileEntry} {l : List GdfxFileEntry} : e ∈ l → InTree e l
  | under {e p : GdfxFileEntry} {l : List GdfxFileEntry} :
      p ∈ l → InTree e p.files → InTree e l

/-- The names of the siblings `l` are pairwise distinct, non-empty and free of
both separators. -/
def NamesOK (l : List GdfxFileEntry) : Prop :=
  l.Pairwise (fun a b => a.name ≠ b.name) ∧
  ∀ e ∈ l, e.name ≠ [] ∧ '\\' ∉ e.name ∧ '/' ∉ e.name

/-- The entry `e` is reached from the directory listing `l` by the chain of
names `names`: each name but the last names an entry of the current listing,
whose children are the next listing, and the last names `e` itself. -/
inductive Reaches : List GdfxFileEntry → List (List Char) → GdfxFileEntry → Prop
  | last {l : List GdfxFileEntry} {e : GdfxFileEntry} : e ∈ l → Reaches l [e.name] e
  | step {l : List GdfxFileEntry} {p e : GdfxFileEntry} {ns : List (List Char)} :
      p ∈ l → Reaches p.files ns e → Reaches l (p.name :: ns) e

/-- The path `n1\n2\...\nk` of a chain of names. -/
def joinPath : List (List Char) → List Char
  | [] => []
  | [n] => n
  | n :: m :: ns => n ++ '\\' :: joinPath (m :: ns)
instance (l : List GdfxFileEntry) : Decidable (NamesOK l) := by
  unfold NamesOK; infer_instance

/-- A file entry with the given name and size, for evaluating the definitions. -/
def sampleFile (name : String) (size : Nat) : GdfxFileEntry :=
  { GdfxFileEntry.empty with name := name.toList, nameLen := name.length, size := size }

/-- A directory entry with the given name and children, for evaluating the
definitions. -/
def sampleDir (name : String) (files : List GdfxFileEntry) : GdfxFileEntry :=
  { GdfxFileEntry.empty with
    name := name.toList, nameLen := name.length, attributes := 0x10, files := files }

/-- A small tree: the directory `dir` holding the file `x`, and the file
`default.xex`. -/
def sampleTree : List GdfxFileEntry :=
  [sampleDir "dir" [sampleFile "x" 3], sampleFile "default.xex" 5]

/-- An object whose tree is `root`. -/
def isoWithRoot (root : List GdfxFileEntry) : ISO :=
  { freshISO (streamOf 0 []) with root := root, didReadFileListing := true }

/-- In the listing `l` no entry without the directory bit stands before an
entry with it. -/
def DirsFirst (d : Decls) (l : List GdfxFileEntry) : Prop :=
  l.Pairwise (fun a b => ¬ (isDirectory d a = false ∧ isDirectory d b = true))

instance (d : Decls) (l : List GdfxFileEntry) : Decidable (DirsFirst d l) := by
  unfold DirsFirst; infer_instance

/-- As the spec words it: the smallest multiple of 4 that is `>= x`. -/
def roundUpToMultipleOf4 (x : Nat) : Nat := (x + 3) / 4 * 4

/-- The object as `ReadFileListing.advance` leaves it, on either way out. -/
def ReadFileListing.isoAfter : Listing ⊕ (ISO × Locals) → ISO
  | .inl done => done.iso
  | .inr next => next.1
/-- Every entry of the tree `l`, at any depth, has its children directories
first. -/
def ChildrenDirsFirst (d : Decls) (l : List GdfxFileEntry) : Prop :=
  ∀ e, InTree e l → DirsFirst d e.files
/-- The bytes of a directory-entry record in the layout `sampleReadFileEntry`
reads, padded with `0xFF` to the stride of the record. -/
def sampleRecord (sector size attributes : Nat) (name : String) : List Nat :=
  [0, 0, 0, 0, sector % 256, sector / 256 % 256, 0, 0, size % 256, size / 256 % 256, 0, 0,
    attributes, name.length] ++ name.toList.map Char.toNat ++
    List.replicate (entryStride name.length - (14 + name.length)) 0xFF

/-- A sample image with sectors of `0x40` bytes, stored from address `0x40` on.
Sector 1 is the root listing: the file `b`, the directory `d`, the directory
`e`, then the sentinel. Sector 2 is the listing of `d`, 32 bytes long: the file
`y` and the empty directory `z`. Sector 3 is the listing of `e` and starts with
no record. Sector 4 is the header, sector 5 the content of the files. -/
def sampleImage : BaseStream :=
  streamOf 0x40
    (sampleRecord 5 4 0 "b" ++ sampleRecord 2 0x20 0x10 "d" ++ sampleRecord 3 0x40 0x10 "e"
      ++ List.replicate 16 0xFF
      ++ sampleRecord 5 4 0 "y" ++ sampleRecord 0 0 0x10 "z" ++ List.replicate 32 0
      ++ List.replicate 64 0xFF
      ++ [0x47, 0x44, 0x46, 0x58, 1, 0, 0, 0, 0x40, 0, 0, 0] ++ List.replicate 52 0
      ++ [0x43, 0x4F, 0x4E, 0x20])

/-- The object over `sampleImage` once its header is parsed. -/
def sampleISO : ISO :=
  { freshISO sampleImage with
    gdfxHeaderAddress := 0x100, xgdVersion := "XGD1".toList, gdfxHeader := ⟨1, 0x40⟩ }

/-! ## Extraction -/

/-- What extraction does outside the image: every directory handed to
`Utils::CreateLocalDirectory`, every file created as a `BigFileIO` with the
buffers written to it, and every call `progress(arg, a, b)` as the pair
`(a, b)`; each oldest first. -/
structure Outside where
  dirs : List (List Char)
  files : List (List Char × List (List Nat))
  calls : List (Nat × Nat)
  deriving DecidableEq, Repr

/-- What the extraction helpers pass along: the object, the world outside, and
the counter behind `DWORD *curProgress` (`none` for a `NULL` pointer). -/
structure ExtractState where
  iso : ISO
  out : Outside
  curProgress : Option Nat

/-- The state inside the copy loop of `ISO::ExtractFileHelper`; `written` holds
the buffers handed to `extractedFile.WriteBytes`, oldest first. -/
structure CopyState where
  iso : ISO
  written : List (List Nat)
  curProgress : Option Nat
  calls : List (Nat × Nat)

/-- The number of bytes of turn `x` of the copy loop (lines 351 to 353). -/
def ExtractFileHelper.numBytesToCopy (d : Decls) (size totalReads x : Nat) : Nat :=
  if x = totalReads - 1 ∧ size % d.ISO_COPY_BUFFER_SIZE ≠ 0 then size % d.ISO_COPY_BUFFER_SIZE
  else d.ISO_COPY_BUFFER_SIZE

/-- One turn of the copy loop of `ISO::ExtractFileHelper` (lines 350 to 363);
`progress` tells whether a callback was supplied. -/
def ExtractFileHelper.step (d : Decls) (size totalReads totalProgress : Nat) (progress : Bool)
    (s : CopyState) (x : Nat) : CopyState :=
  let r := s.iso.io.ReadBytes (ExtractFileHelper.numBytesToCopy d size totalReads x)
  let curProgress := s.curProgress.map (fun c => toDWORD (c + 1))
  { iso := { s.iso with io := r.2 }
    written := s.written ++ [r.1]
    curProgress := curProgress
    calls := if progress then s.calls ++ [(curProgress.getD 0, totalProgress)] else s.calls }

/-- The rounded-up count of buffers of a file, as lines 339 to 341 and 295 to
297 compute it. -/
def sectionsPerFile (d : Decls) (size : Nat) : Nat :=
  if size % d.ISO_COPY_BUFFER_SIZE ≠ 0 then toDWORD (size / d.ISO_COPY_BUFFER_SIZE + 1)
  else toDWORD (size / d.ISO_COPY_BUFFER_SIZE)

/-- `ISO::ExtractFileHelper`. The `for` loop runs `x` over `0, ..., totalReads - 1`. -/
def ExtractFileHelper (d : Decls) (outDirectory : List Char) (toExtract : GdfxFileEntry)
    (progress : Bool) (totalProgress : Nat) (st : ExtractState) : ExtractState :=
  let dirs := st.out.dirs ++ [outDirectory]
  let outFilePath := outDirectory ++ "/".toList ++ toExtract.name
  let totalReads := sectionsPerFile d toExtract.size
  let readAddress := SectorToAddress d st.iso toExtract.sector
  let iso := { st.iso with io := st.iso.io.SetPosition readAddress }
  let s := (List.range totalReads).foldl
    (ExtractFileHelper.step d toExtract.size totalReads totalProgress progress)
    { iso := iso, written := [], curProgress := st.curProgress, calls := st.out.calls }
  { iso := s.iso
    out := { dirs := dirs, files := st.out.files ++ [(outFilePath, s.written)], calls := s.calls }
    curProgress := s.curProgress }

/-- `ISO::ExtractFile(outDirectory, fileEntry, progress, arg)`. -/
def ExtractFile (d : Decls) (iso : ISO) (out : Outside) (outDirectory : List Char)
    (fileEntry : GdfxFileEntry) (progress : Bool) : ExtractState :=
  let curProgress := 0
  let totalReads := toDWORD (fileEntry.size / d.ISO_COPY_BUFFER_SIZE + 1)
  ExtractFileHelper d outDirectory fileEntry progress totalReads
    { iso := iso, out := out, curProgress := some curProgress }

mutual
/-- The contribution of one entry to `ISO::GetTotalCopyIterations` (lines 288
to 300). -/
def GetTotalCopyIterations.entry (d : Decls) : GdfxFileEntry → Nat
  | ⟨_, _, attributes, _, size, _, _, _, _, files⟩ =>
    if attributes &&& d.GdfxDirectory != 0 then GetTotalCopyIterations.from d 0 files
    else sectionsPerFile d size
/-- The loop of `ISO::GetTotalCopyIterations` over the rest of the list, with
`totalCopyIterations` so far. -/
def GetTotalCopyIterations.from (d : Decls) : Nat → List GdfxFileEntry → Nat
  | totalCopyIterations, [] => totalCopyIterations
  | totalCopyIterations, entry :: rest =>
    GetTotalCopyIterations.from d
      (toDWORD (totalCopyIterations + GetTotalCopyIterations.entry d entry)) rest
end

/-- `ISO::GetTotalCopyIterations`. -/
def GetTotalCopyIterations (d : Decls) (entryList : List GdfxFileEntry) : Nat :=
  GetTotalCopyIterations.from d 0 entryList

mutual
/-- The body of the loop of `ISO::ExtractAllHelper` for one entry (lines 311
to 323). -/
def ExtractAllHelper.entry (d : Decls) (outDirectory : List Char) (progress : Bool)
    (totalProgress : Nat) : GdfxFileEntry → ExtractState → ExtractState
  | ⟨name, nameLen, attributes, sector, size, address, fileIndex, filePath, magic, files⟩, st =>
    if attributes &&& d.GdfxDirectory != 0 then
      ExtractAllHelper.from d outDirectory progress totalProgress files
        { st with out := { st.out with
            dirs := st.out.dirs ++ [outDirectory ++ "/".toList ++ filePath ++ name] } }
    else
      ExtractFileHelper d (outDirectory ++ "/".toList ++ filePath)
        ⟨name, nameLen, attributes, sector, size, address, fileIndex, filePath, magic, files⟩
        progress totalProgress st
/-- The loop of `ISO::ExtractAllHelper` over the rest of the list. -/
def ExtractAllHelper.from (d : Decls) (outDirectory : List Char) (progress : Bool)
    (totalProgress : Nat) : List GdfxFileEntry → ExtractState → ExtractState
  | [], st => st
  | entry :: rest, st =>
    ExtractAllHelper.from d outDirectory progress totalProgress rest
      (ExtractAllHelper.entry d outDirectory progress totalProgress entry st)
end

/-- `ISO::ExtractAllHelper`. -/
def ExtractAllHelper (d : Decls) (outDirectory : List Char) (entryList : List GdfxFileEntry)
    (progress : Bool) (totalProgress : Nat) (st : ExtractState) : ExtractState :=
  ExtractAllHelper.from d outDirectory progress totalProgress entryList st

/-- `ISO::ExtractAll(outDirectory, progress, arg)`. -/
def ExtractAll (d : Decls) (iso : ISO) (out : Outside) (outDirectory : List Char)
    (progress : Bool) : ExtractState :=
  let curProgress := 0
  ExtractAllHelper d outDirectory iso.root progress (GetTotalCopyIterations d iso.root)
    { iso := iso, out := out, curProgress := some curProgress }

/-- The reads of the given lengths, one behind the other from `pos` on, as
(address, length). -/
def readsFrom (pos : Nat) : List Nat → List (Nat × Nat)
  | [] => []
  | n :: ns => (pos, n) :: readsFrom (pos + n) ns

/-- The bytes of the stream from `pos` on, cut into pieces of the given lengths. -/
def chunksFrom (io : BaseStream) (pos : Nat) : List Nat → List (List Nat)
  | [] => []
  | n :: ns => io.bytesAt pos n :: chunksFrom io (pos + n) ns

/-- The buffer lengths of a file of `size` bytes: full buffers, then the
remainder if there is one. -/
def chunkSizes (d : Decls) (size : Nat) : List Nat :=
  List.replicate (size / d.ISO_COPY_BUFFER_SIZE) d.ISO_COPY_BUFFER_SIZE
    ++ (if size % d.ISO_COPY_BUFFER_SIZE ≠ 0 then [size % d.ISO_COPY_BUFFER_SIZE] else [])

mutual
/-- The copy units of one entry: those of its children for a directory, the
size divided by the buffer size and rounded up for a file. -/
def copyUnits.entry (d : Decls) : GdfxFileEntry → Nat
  | ⟨_, _, attributes, _, size, _, _, _, _, files⟩ =>
    if attributes &&& d.GdfxDirectory != 0 then copyUnits.list d files
    else (size + d.ISO_COPY_BUFFER_SIZE - 1) / d.ISO_COPY_BUFFER_SIZE
/-- The copy units of a tree: the sum over all its files, at any depth. -/
def copyUnits.list (d : Decls) : List GdfxFileEntry → Nat
  | [] => 0
  | entry :: rest => copyUnits.entry d entry + copyUnits.list d rest
end

/-- A tree two directories deep: `d` holds the file `y` of `0x21` bytes and the
directory `e`, which holds the file `w` of `0x10` bytes; beside `d` stands the
file `b` of 4 bytes. With buffers of `0x10` bytes the files need 3, 1 and 1
copy units. -/
def sampleDeepTree : List GdfxFileEntry :=
  [sampleDir "d" [sampleFile "y" 0x21, sampleDir "e" [sampleFile "w" 0x10]], sampleFile "b" 4]

/-! ## Title -/

/-- What `ISO::GetTitleName` uses and `src/` does not hold: the three package
magics `CON`, `LIVE` and `PIRS`, and the package collaborator `StfsPackage`,
which is built over a view of the entry and reports `metaData->titleName`; it
reads from the stream as it does so. -/
structure StfsDecls where
  CON : Nat
  LIVE : Nat
  PIRS : Nat
  StfsPackage : BaseStream → GdfxFileEntry → List Char × BaseStream

/-- What `ISO::GetTitleName` leaves behind: the title returned, the object, and
`opened`, the entries over which a `StfsPackage` was built, oldest first. -/
structure TitleResult where
  title : List Char
  iso : ISO
  opened : List GdfxFileEntry

/-- The `case CON: case LIVE: case PIRS:` of the `switch (entry.magic)`. -/
def isPackageMagic (s : StfsDecls) (entry : GdfxFileEntry) : Bool :=
  decide (entry.magic = s.CON ∨ entry.magic = s.LIVE ∨ entry.magic = s.PIRS)

/-- The `for` loop of `ISO::GetTitleName` over the rest of `root`, and the
`return titleName` behind it. -/
def GetTitleName.scan (s : StfsDecls) : List GdfxFileEntry → ISO → List GdfxFileEntry → TitleResult
  | [], iso, opened => { title := iso.titleName, iso := iso, opened := opened }
  | entry :: rest, iso, opened =>
    if isPackageMagic s entry then
      let package := s.StfsPackage iso.io entry
      let iso := { iso with io := package.2 }
      if package.1.length ≠ 0 then
        { title := package.1, iso := iso, opened := opened ++ [entry] }
      else
        GetTitleName.scan s rest iso (opened ++ [entry])
    else
      GetTitleName.scan s rest iso opened

/-- `ISO::GetTitleName`. -/
def GetTitleName (s : StfsDecls) (iso : ISO) : TitleResult :=
  if iso.titleName.length ≠ 0 then
    { title := iso.titleName, iso := iso, opened := [] }
  else
    GetTitleName.scan s iso.root iso []

/-- The title a sample package holds in the image `data`: the four bytes behind
the magic of the entry's content, without the zero bytes. The content of an
entry starts `0x40` bytes a sector from address 0. -/
def sampleTitle (data : Nat → Nat) (e : GdfxFileEntry) : List Char :=
  (((List.range 4).map (fun i => data (e.sector * 0x40 + 4 + i))).filter (· != 0)).map Char.ofNat

/-- Sample package declarations: the collaborator seeks to the title of the
package and reads it from the image. -/
def sampleStfs : StfsDecls :=
  { CON := 0x434F4E20, LIVE := 0x4C495645, PIRS := 0x50495253,
    StfsPackage := fun io e =>
      let r := (io.SetPosition (e.sector * 0x40 + 4)).ReadBytes 4
      ((r.1.filter (· != 0)).map Char.ofNat, r.2) }

/-- A root with four files: `a` with no package magic, the `CON` package `p`,
the `LIVE` package `q`, the `PIRS` package `r`, at the sectors 0 to 3. -/
def samplePackages : List GdfxFileEntry :=
  [{ sampleFile "a" 10 with sector := 0, magic := 0 },
   { sampleFile "p" 8 with sector := 1, magic := 0x434F4E20 },
   { sampleFile "q" 8 with sector := 2, magic := 0x4C495645 },
   { sampleFile "r" 8 with sector := 3, magic := 0x50495253 }]

/-- An image for `samplePackages`: at sector 0 the text `no title`, at sector 1
`CON ` and no title, at sector 2 `LIVE` and the title `Halo`, at sector 3
`PIRS` and the title `Zork`. -/
def samplePackageImage : BaseStream :=
  streamOf 0
    ([0x6E, 0x6F, 0x20, 0x74, 0x69, 0x74, 0x6C, 0x65] ++ List.replicate 56 0
      ++ [0x43, 0x4F, 0x4E, 0x20, 0, 0, 0, 0] ++ List.replicate 56 0
      ++ [0x4C, 0x49, 0x56, 0x45, 0x48, 0x61, 0x6C, 0x6F] ++ List.replicate 56 0
      ++ [0x50, 0x49, 0x52, 0x53, 0x5A, 0x6F, 0x72, 0x6B])

/-- The object over `samplePackageImage` with the root `samplePackages`. -/
def samplePackageISO : ISO :=
  { isoWithRoot samplePackages with io := samplePackageImage }

/-- The counter `bytesLeft` as `ReadFileListing.advance` leaves it for the next
turn of the loop, if there is one. -/
def ReadFileListing.bytesLeftAfter : Listing ⊕ (ISO × Locals) → Option Nat
  | .inl _ => none
  | .inr next => some next.2.bytesLeft

/-! ## `std::sort` of the GNU C++ library

`std::sort` as `bits/stl_algo.h` and `bits/stl_heap.h` of libstdc++ have it: an
introsort that partitions ranges of more than 16 elements, falls back on a heap
sort when the recursion gets too deep, and ends with an insertion sort. The
range is a list, an iterator is an index into it, and a loop that the library
leaves unguarded is bounded by the length of the list. -/

namespace libstdcxx

/-- `*(first + i)`. -/
def deref (a : List GdfxFileEntry) (i : Nat) : GdfxFileEntry := a.getD i GdfxFileEntry.empty

/-- `std::iter_swap(i, j)`. -/
def iter_swap (a : List GdfxFileEntry) (i j : Nat) : List GdfxFileEntry :=
  (a.set i (deref a j)).set j (deref a i)

/-- `std::__move_median_to_first(result, x, y, z, comp)`. -/
def move_median_to_first (comp : GdfxFileEntry → GdfxFileEntry → Bool) (a : List GdfxFileEntry)
    (result x y z : Nat) : List GdfxFileEntry :=
  if comp (deref a x) (deref a y) then
    if comp (deref a y) (deref a z) then iter_swap a result y
    else if comp (deref a x) (deref a z) then iter_swap a result z
    else iter_swap a result x
  else if comp (deref a x) (deref a z) then iter_swap a result x
  else if comp (deref a y) (deref a z) then iter_swap a result z
  else iter_swap a result y

/-- `while (comp(first, pivot)) ++first;` -/
def scanUp (comp : GdfxFileEntry → GdfxFileEntry → Bool) (a : List GdfxFileEntry) (pivot : Nat) :
    Nat → Nat → Nat
  | 0, first => first
  | n + 1, first => if comp (deref a first) (deref a pivot) then scanUp comp a pivot n (first + 1)
                    else first

/-- `while (comp(pivot, last)) --last;` -/
def scanDown (comp : GdfxFileEntry → GdfxFileEntry → Bool) (a : List GdfxFileEntry) (pivot : Nat) :
    Nat → Nat → Nat
  | 0, last => last
  | n + 1, last => if comp (deref a pivot) (deref a last) then scanDown comp a pivot n (last - 1)
                   else last

/-- `std::__unguarded_partition(first, last, pivot, comp)`: the range after, and
the cut. -/
def unguarded_partition (comp : GdfxFileEntry → GdfxFileEntry → Bool) (pivot : Nat) :
    Nat → List GdfxFileEntry → Nat → Nat → List GdfxFileEntry × Nat
  | 0, a, first, _ => (a, first)
  | n + 1, a, first, last =>
    let first := scanUp comp a pivot a.length first
    let last := scanDown comp a pivot a.length (last - 1)
    if ¬ first < last then (a, first)
    else unguarded_partition comp pivot n (iter_swap a first last) (first + 1) last

/-- `std::__unguarded_partition_pivot(first, last, comp)`. -/
def unguarded_partition_pivot (comp : GdfxFileEntry → GdfxFileEntry → Bool)
    (a : List GdfxFileEntry) (first last : Nat) : List GdfxFileEntry × Nat :=
  let mid := first + (last - first) / 2
  let a := move_median_to_first comp a first (first + 1) mid (last - 1)
  unguarded_partition comp first a.length a (first + 1) last

/-- The loop of `std::__push_heap`: the hole after the parents that come before
`value` have moved down into it. -/
def push_heap.loop (comp : GdfxFileEntry → GdfxFileEntry → Bool) (first topIndex : Nat)
    (value : GdfxFileEntry) : Nat → List GdfxFileEntry → Nat → List GdfxFileEntry × Nat
  | 0, a, holeIndex => (a, holeIndex)
  | n + 1, a, holeIndex =>
    let parent := (holeIndex - 1) / 2
    if holeIndex > topIndex ∧ comp (deref a (first + parent)) value = true then
      push_heap.loop comp first topIndex value n
        (a.set (first + holeIndex) (deref a (first + parent))) parent
    else (a, holeIndex)

/-- `std::__push_heap(first, holeIndex, topIndex, value, comp)`. -/
def push_heap (comp : GdfxFileEntry → GdfxFileEntry → Bool) (a : List GdfxFileEntry)
    (first holeIndex topIndex : Nat) (value : GdfxFileEntry) : List GdfxFileEntry :=
  let r := push_heap.loop comp first topIndex value a.length a holeIndex
  r.1.set (first + r.2) value

/-- The first loop of `std::__adjust_heap`: the range, the hole and
`secondChild` after it. -/
def adjust_heap.loop (comp : GdfxFileEntry → GdfxFileEntry → Bool) (first len : Nat) :
    Nat → List GdfxFileEntry → Nat → Nat → List GdfxFileEntry × Nat × Nat
  | 0, a, holeIndex, secondChild => (a, holeIndex, secondChild)
  | n + 1, a, holeIndex, secondChild =>
    if secondChild < (len - 1) / 2 then
      let secondChild := 2 * (secondChild + 1)
      let secondChild :=
        if comp (deref a (first + secondChild)) (deref a (first + (secondChild - 1)))
        then secondChild - 1 else secondChild
      adjust_heap.loop comp first len n
        (a.set (first + holeIndex) (deref a (first + secondChild))) secondChild secondChild
    else (a, holeIndex, secondChild)

/-- `std::__adjust_heap(first, holeIndex, len, value, comp)`. -/
def adjust_heap (comp : GdfxFileEntry → GdfxFileEntry → Bool) (a : List GdfxFileEntry)
    (first holeIndex len : Nat) (value : GdfxFileEntry) : List GdfxFileEntry :=
  let topIndex := holeIndex
  let r := adjust_heap.loop comp first len a.length a holeIndex holeIndex
  let a := r.1
  let holeIndex := r.2.1
  let secondChild := r.2.2
  if len % 2 = 0 ∧ secondChild = (len - 2) / 2 then
    let secondChild := 2 * (secondChild + 1)
    let a := a.set (first + holeIndex) (deref a (first + (secondChild - 1)))
    push_heap comp a first (secondChild - 1) topIndex value
  else
    push_heap comp a first holeIndex topIndex value

/-- `std::__pop_heap(first, last, result, comp)`. -/
def pop_heap (comp : GdfxFileEntry → GdfxFileEntry → Bool) (a : List GdfxFileEntry)
    (first last result : Nat) : List GdfxFileEntry :=
  let value := deref a result
  let a := a.set result (deref a first)
  adjust_heap comp a first 0 (last - first) value

/-- The loop of `std::__make_heap`, from `parent` down to 0. -/
def make_heap.loop (comp : GdfxFileEntry → GdfxFileEntry → Bool) (first len : Nat) :
    Nat → List GdfxFileEntry → List GdfxFileEntry
  | 0, a => adjust_heap comp a first 0 len (deref a first)
  | parent + 1, a =>
    make_heap.loop comp first len parent
      (adjust_heap comp a first (parent + 1) len (deref a (first + (parent + 1))))

/-- `std::__make_heap(first, last, comp)`. -/
def make_heap (comp : GdfxFileEntry → GdfxFileEntry → Bool) (a : List GdfxFileEntry)
    (first last : Nat) : List GdfxFileEntry :=
  if last - first < 2 then a
  else make_heap.loop comp first (last - first) ((last - first - 2) / 2) a

/-- `std::__sort_heap(first, last, comp)`; `n` is `last - first`. -/
def sort_heap (comp : GdfxFileEntry → GdfxFileEntry → Bool) (first : Nat) :
    Nat → List GdfxFileEntry → List GdfxFileEntry
  | 0, a => a
  | n + 1, a =>
    if n + 1 > 1 then sort_heap comp first n (pop_heap comp a first (first + n) (first + n))
    else a

/-- `std::__partial_sort(first, last, last, comp)`: with `middle == last` the
loop of `std::__heap_select` has nothing to do. -/
def partial_sort (comp : GdfxFileEntry → GdfxFileEntry → Bool) (a : List GdfxFileEntry)
    (first last : Nat) : List GdfxFileEntry :=
  sort_heap comp first (last - first) (make_heap comp a first last)

/-- `std::__introsort_loop(first, last, depth_limit, comp)`; the first argument
bounds the turns of the loop and the depth of the recursion. -/
def introsort_loop (comp : GdfxFileEntry → GdfxFileEntry → Bool) :
    Nat → List GdfxFileEntry → Nat → Nat → Nat → List GdfxFileEntry
  | 0, a, _, _, _ => a
  | n + 1, a, first, last, depth_limit =>
    if last - first > 16 then
      if depth_limit = 0 then partial_sort comp a first last
      else
        let depth_limit := depth_limit - 1
        let r := unguarded_partition_pivot comp a first last
        let a := introsort_loop comp n r.1 r.2 last depth_limit
        introsort_loop comp n a first r.2 depth_limit
    else a

/-- The loop of `std::__unguarded_linear_insert`. -/
def unguarded_linear_insert.loop (comp : GdfxFileEntry → GdfxFileEntry → Bool)
    (val : GdfxFileEntry) : Nat → List GdfxFileEntry → Nat → List GdfxFileEntry × Nat
  | 0, a, last => (a, last)
  | n + 1, a, last =>
    if comp val (deref a (last - 1)) then
      unguarded_linear_insert.loop comp val n (a.set last (deref a (last - 1))) (last - 1)
    else (a, last)

/-- `std::__unguarded_linear_insert(last, comp)`. -/
def unguarded_linear_insert (comp : GdfxFileEntry → GdfxFileEntry → Bool)
    (a : List GdfxFileEntry) (last : Nat) : List GdfxFileEntry :=
  let val := deref a last
  let r := unguarded_linear_insert.loop comp val a.length a last
  r.1.set r.2 val

/-- The body of the loop of `std::__insertion_sort` for the iterator `i`. -/
def insertion_sort.step (comp : GdfxFileEntry → GdfxFileEntry → Bool) (first : Nat)
    (a : List GdfxFileEntry) (i : Nat) : List GdfxFileEntry :=
  if comp (deref a i) (deref a first) then
    a.take first ++ [deref a i] ++ (a.drop first).take (i - first) ++ a.drop (i + 1)
  else unguarded_linear_insert comp a i

/-- `std::__insertion_sort(first, last, comp)`. -/
def insertion_sort (comp : GdfxFileEntry → GdfxFileEntry → Bool) (a : List GdfxFileEntry)
    (first last : Nat) : List GdfxFileEntry :=
  if first = last then a
  else (List.range (last - (first + 1))).foldl
    (fun a k => insertion_sort.step comp first a (first + 1 + k)) a

/-- `std::__unguarded_insertion_sort(first, last, comp)`. -/
def unguarded_insertion_sort (comp : GdfxFileEntry → GdfxFileEntry → Bool)
    (a : List GdfxFileEntry) (first last : Nat) : List GdfxFileEntry :=
  (List.range (last - first)).foldl (fun a k => unguarded_linear_insert comp a (first + k)) a

/-- `std::__final_insertion_sort(first, last, comp)`. -/
def final_insertion_sort (comp : GdfxFileEntry → GdfxFileEntry → Bool) (a : List GdfxFileEntry)
    (first last : Nat) : List GdfxFileEntry :=
  if last - first > 16 then
    unguarded_insertion_sort comp (insertion_sort comp a first (first + 16)) (first + 16) last
  else insertion_sort comp a first last

/-- The halvings of `std::__lg`; the first argument bounds them. -/
def lg.loop : Nat → Nat → Nat
  | 0, _ => 0
  | fuel + 1, n => if n < 2 then 0 else lg.loop fuel (n / 2) + 1

/-- `std::__lg(n)`: the binary logarithm of `n` rounded down. -/
def lg (n : Nat) : Nat := lg.loop n n

/-- `std::sort(first, last, comp)` over the whole list. -/
def sort (comp : GdfxFileEntry → GdfxFileEntry → Bool) (a : List GdfxFileEntry) :
    List GdfxFileEntry :=
  if a.length = 0 then a
  else
    final_insertion_sort comp
      (introsort_loop comp (a.length + 1) a 0 a.length (lg a.length * 2)) 0 a.length

end libstdcxx

/-- C1: for a 32-bit sector and a header address that is one of the three
candidate offsets, `SectorToAddress` is the exact integer
`sector * ISO_SECTOR_SIZE + gdfxHeaderAddress - ISO_XGD1_ADDRESS`: nothing
wraps, and the zero point is the first candidate offset. -/
theorem SectorToAddress_exact (d : Decls) (iso : ISO) (sector : Nat)
    (hd : d.AddressesFit) (hs : sector < 2 ^ 32)
    (hh : iso.gdfxHeaderAddress = d.ISO_XGD1_ADDRESS ∨
          iso.gdfxHeaderAddress = d.ISO_XGD2_ADDRESS ∨
          iso.gdfxHeaderAddress = d.ISO_XGD3_ADDRESS) :
    ((SectorToAddress d iso sector : Nat) : Int) =
      (sector : Int) * (d.ISO_SECTOR_SIZE : Int) + (iso.gdfxHeaderAddress : Int)
        - (d.ISO_XGD1_ADDRESS : Int) := by
  obtain ⟨h12, h13, f1, f2, f3⟩ := hd
  have hmul : sector * d.ISO_SECTOR_SIZE ≤ (2 ^ 32 - 1) * d.ISO_SECTOR_SIZE :=
    Nat.mul_le_mul_right _ (by omega)
  have hge : d.ISO_XGD1_ADDRESS ≤ iso.gdfxHeaderAddress := by
    rcases hh with h | h | h <;> omega
  have hfit : sector * d.ISO_SECTOR_SIZE + iso.gdfxHeaderAddress < 2 ^ 64 := by
    rcases hh with h | h | h <;> omega
  have e1 : toDWORD sector = sector := Nat.mod_eq_of_lt hs
  have e2 : mul64 sector d.ISO_SECTOR_SIZE = sector * d.ISO_SECTOR_SIZE :=
    Nat.mod_eq_of_lt (by omega)
  have e3 : add64 (sector * d.ISO_SECTOR_SIZE) iso.gdfxHeaderAddress
      = sector * d.ISO_SECTOR_SIZE + iso.gdfxHeaderAddress := Nat.mod_eq_of_lt hfit
  have e4 : sub64 (sector * d.ISO_SECTOR_SIZE + iso.gdfxHeaderAddress) d.ISO_XGD1_ADDRESS
      = sector * d.ISO_SECTOR_SIZE + iso.gdfxHeaderAddress - d.ISO_XGD1_ADDRESS := by
    unfold sub64
    have hx : d.ISO_XGD1_ADDRESS < 2 ^ 64 := by omega
    rw [Nat.mod_eq_of_lt hfit, Nat.mod_eq_of_lt hx]
    omega
  unfold SectorToAddress
  rw [e1, e2, e3, e4]
  push_cast [Nat.cast_sub (show d.ISO_XGD1_ADDRESS ≤ sector * d.ISO_SECTOR_SIZE + iso.gdfxHeaderAddress by omega)]
  ring

/-- C1, evaluated: sector 3 of a disc whose header was found at the second
candidate offset. -/
theorem SectorToAddress_exact_witness :
    sampleDecls.AddressesFit ∧ 3 < 2 ^ 32 ∧
    ((SectorToAddress sampleDecls { freshISO (streamOf 0 []) with gdfxHeaderAddress := 0x200 } 3 : Nat) : Int)
      = 3 * 0x40 + 0x200 - 0x100 :=
  ⟨by decide, by decide,
   SectorToAddress_exact sampleDecls { freshISO (streamOf 0 []) with gdfxHeaderAddress := 0x200 } 3
    (by decide) (by decide) (Or.inr (Or.inl rfl))⟩

/-! ## Header location: theorems -/

theorem ValidGDFXHeader_fst (d : Decls) (iso : ISO) (address : Nat) :
    (ValidGDFXHeader d iso address).1 = decide (holdsSignature d iso.io address) := by
  have hlen : (iso.io.bytesAt address d.GDFX_HEADER_MAGIC_LEN).length = d.GDFX_HEADER_MAGIC_LEN := by
    simp [BaseStream.bytesAt]
  simp only [ValidGDFXHeader, BaseStream.ReadBytes, BaseStream.SetPosition, holdsSignature]
  have hb : ({ data := iso.io.data, pos := address, endian := iso.io.endian,
               reads := iso.io.reads } : BaseStream).bytesAt address d.GDFX_HEADER_MAGIC_LEN
      = iso.io.bytesAt address d.GDFX_HEADER_MAGIC_LEN := rfl
  rw [decide_eq_decide, hb, List.take_of_length_le (le_of_eq hlen)]

theorem ValidGDFXHeader_snd (d : Decls) (iso : ISO) (offsets : List Nat) (address : Nat) :
    (ValidGDFXHeader d { iso with io := probed d iso.io offsets } address).2
      = { iso with io := probed d iso.io (offsets ++ [address]) } := by
  simp [ValidGDFXHeader, BaseStream.ReadBytes, BaseStream.SetPosition, probed]

theorem probed_nil (d : Decls) (iso : ISO) : ({ iso with io := probed d iso.io [] } : ISO) = iso := by
  simp [probed]

theorem holdsSignature_probed (d : Decls) (io : BaseStream) (offsets : List Nat) (a : Nat) :
    holdsSignature d (probed d io offsets) a ↔ holdsSignature d io a := by
  simp [holdsSignature, probed, BaseStream.bytesAt]

/-- C2: `ParseISO` probes the first, then the second, then the third candidate
offset and accepts the first that holds the signature, with that offset as
`gdfxHeaderAddress` and its label as `xgdVersion`, having read the signature at
no later offset; it throws the invalid-image error exactly when none of the
three holds the signature. -/
theorem ParseISO_first_match (d : Decls) (iso : ISO) :
    ParseISO d iso =
      (if holdsSignature d iso.io d.ISO_XGD1_ADDRESS then
        .ok (parseHeaderAt d { iso with io := probed d iso.io [d.ISO_XGD1_ADDRESS] }
          d.ISO_XGD1_ADDRESS "XGD1".toList)
      else if holdsSignature d iso.io d.ISO_XGD2_ADDRESS then
        .ok (parseHeaderAt d
          { iso with io := probed d iso.io [d.ISO_XGD1_ADDRESS, d.ISO_XGD2_ADDRESS] }
          d.ISO_XGD2_ADDRESS "XGD2".toList)
      else if holdsSignature d iso.io d.ISO_XGD3_ADDRESS then
        .ok (parseHeaderAt d
          { iso with
            io := probed d iso.io [d.ISO_XGD1_ADDRESS, d.ISO_XGD2_ADDRESS, d.ISO_XGD3_ADDRESS] }
          d.ISO_XGD3_ADDRESS "XGD3".toList)
      else .error (.str "ISO: Invalid Xbox 360 ISO.".toList)) ∧
    (ParseISO d iso = .error (.str "ISO: Invalid Xbox 360 ISO.".toList) ↔
      ¬ holdsSignature d iso.io d.ISO_XGD1_ADDRESS ∧
      ¬ holdsSignature d iso.io d.ISO_XGD2_ADDRESS ∧
      ¬ holdsSignature d iso.io d.ISO_XGD3_ADDRESS) ∧
    (∀ address version i, (parseHeaderAt d i address version).gdfxHeaderAddress = address ∧
      (parseHeaderAt d i address version).xgdVersion = version) := by
  have key : ParseISO d iso =
      (if holdsSignature d iso.io d.ISO_XGD1_ADDRESS then
        .ok (parseHeaderAt d { iso with io := probed d iso.io [d.ISO_XGD1_ADDRESS] }
          d.ISO_XGD1_ADDRESS "XGD1".toList)
      else if holdsSignature d iso.io d.ISO_XGD2_ADDRESS then
        .ok (parseHeaderAt d
          { iso with io := probed d iso.io [d.ISO_XGD1_ADDRESS, d.ISO_XGD2_ADDRESS] }
          d.ISO_XGD2_ADDRESS "XGD2".toList)
      else if holdsSignature d iso.io d.ISO_XGD3_ADDRESS then
        .ok (parseHeaderAt d
          { iso with
            io := probed d iso.io [d.ISO_XGD1_ADDRESS, d.ISO_XGD2_ADDRESS, d.ISO_XGD3_ADDRESS] }
          d.ISO_XGD3_ADDRESS "XGD3".toList)
      else .error (.str "ISO: Invalid Xbox 360 ISO.".toList)) := by
    have s1 := ValidGDFXHeader_snd d iso [] d.ISO_XGD1_ADDRESS
    rw [probed_nil] at s1
    have s2 := ValidGDFXHeader_snd d iso [d.ISO_XGD1_ADDRESS] d.ISO_XGD2_ADDRESS
    have s3 := ValidGDFXHeader_snd d iso [d.ISO_XGD1_ADDRESS, d.ISO_XGD2_ADDRESS] d.ISO_XGD3_ADDRESS
    simp only [List.nil_append, List.singleton_append, List.cons_append] at s1 s2 s3
    unfold ParseISO
    simp only [s1, s2, s3, ValidGDFXHeader_fst, holdsSignature_probed, decide_eq_true_eq]
  refine ⟨key, ?_, fun _ _ _ => ⟨rfl, rfl⟩⟩
  rw [key]
  by_cases h1 : holdsSignature d iso.io d.ISO_XGD1_ADDRESS
  · simp [h1]
  · by_cases h2 : holdsSignature d iso.io d.ISO_XGD2_ADDRESS
    · simp [h1, h2]
    · by_cases h3 : holdsSignature d iso.io d.ISO_XGD3_ADDRESS
      · simp [h1, h2, h3]
      · simp [h1, h2, h3]
/-- C2, evaluated: a stream that holds the signature at the second candidate
offset only is accepted there, after reads at the first and the second offset
and before the header read. -/
theorem ParseISO_first_match_witness :
    ∃ iso, ParseISO sampleDecls (freshISO (streamOf 0x200 [0x47, 0x44, 0x46, 0x58, 2, 0, 0, 0, 0x40, 0, 0, 0]))
        = .ok iso ∧
      iso.gdfxHeaderAddress = 0x200 ∧ iso.xgdVersion = "XGD2".toList ∧
      iso.io.reads = [(0x100, 4), (0x200, 4), (0x204, 8)] ∧
      iso.gdfxHeader = ⟨2, 0x40⟩ := by
  refine ⟨_, (ParseISO_first_match sampleDecls _).1, ?_⟩
  decide

/-! ## Path resolution: theorems -/

theorem strFind_not_mem (s : List Char) (c : Char) (h : c ∉ s) : strFind s c = none := by
  induction s with
  | nil => rfl
  | cons x xs ih =>
    have hx : x ≠ c := fun hxc => h (by simp [hxc])
    have hxs : c ∉ xs := fun hm => h (by simp [hm])
    simp [strFind, hx, ih hxs]

theorem strFind_append_sep (n rest : List Char) (c : Char) (h : c ∉ n) :
    strFind (n ++ c :: rest) c = some n.length := by
  induction n with
  | nil => simp [strFind]
  | cons x xs ih =>
    have hx : x ≠ c := fun hxc => h (by simp [hxc])
    have hxs : c ∉ xs := fun hm => h (by simp [hm])
    simp [strFind, hx, ih hxs]

theorem joinPath_cons (n : List Char) (ns : List (List Char)) (h : ns ≠ []) :
    joinPath (n :: ns) = n ++ '\\' :: joinPath ns := by
  cases ns with
  | nil => exact absurd rfl h
  | cons m ms => rfl

theorem Reaches.ne_nil {l : List GdfxFileEntry} {ns : List (List Char)} {e : GdfxFileEntry}
    (h : Reaches l ns e) : ns ≠ [] := by
  cases h <;> simp

theorem find?_name_eq (l : List GdfxFileEntry) (p : GdfxFileEntry) (hp : p ∈ l)
    (hd : l.Pairwise (fun a b => a.name ≠ b.name)) :
    l.find? (fun x => decide (x.name = p.name)) = some p := by
  induction l with
  | nil => simp at hp
  | cons a t ih =>
    rw [List.pairwise_cons] at hd
    by_cases hn : a.name = p.name
    · have : p = a := by
        rcases List.mem_cons.mp hp with h | h
        · exact h
        · exact absurd hn (hd.1 p h)
      subst this
      simp
    · have hpt : p ∈ t := by
        rcases List.mem_cons.mp hp with h | h
        · exact absurd (by rw [h]) hn
        · exact h
      simp [List.find?, hn, ih hpt hd.2]

theorem GetFileEntry.loop_resolves (filePath : List Char) {l : List GdfxFileEntry}
    {names : List (List Char)} {e : GdfxFileEntry} (hr : Reaches l names e) :
    NamesOK l → (∀ p, InTree p l → NamesOK p.files) →
    ∀ (fuel : Nat) (cde : Option GdfxFileEntry), names.length ≤ fuel →
      GetFileEntry.loop filePath fuel l (joinPath names) (strFind (joinPath names) '\\') cde
        = some (.ok e) := by
  induction hr with
  | @last l e he =>
    intro hl _ fuel cde hf
    obtain ⟨fuel, rfl⟩ : ∃ k, fuel = k + 1 := ⟨fuel - 1, by simp at hf; omega⟩
    have hsep : strFind e.name '\\' = none := strFind_not_mem _ _ (hl.2 e he).2.1
    simp only [joinPath, hsep, GetFileEntry.loop, substr]
    simp [find?_name_eq l e he hl.1]
  | @step l p e ns hp hrest ih =>
    intro hl ht fuel cde hf
    obtain ⟨fuel, rfl⟩ : ∃ k, fuel = k + 1 := ⟨fuel - 1, by simp at hf; omega⟩
    have hns := hrest.ne_nil
    have hsep : strFind (p.name ++ '\\' :: joinPath ns) '\\' = some p.name.length :=
      strFind_append_sep _ _ _ (hl.2 p hp).2.1
    rw [joinPath_cons _ _ hns, hsep]
    have hrec := ih (ht p (.here hp)) (fun q hq => ht q (.under hp hq)) fuel (some p)
      (by simp at hf; omega)
    simp only [GetFileEntry.loop, substr]
    simp [find?_name_eq l p hp hl.1, indexSucc, hrec]
theorem strAt_last (s : List Char) (c : Char) (h : s.getLast? = some c) :
    strAt s (s.length - 1) = .ok c := by
  have : s.get? (s.length - 1) = some c := by
    rw [← h, List.getLast?_eq_getElem?]; simp
  unfold strAt
  rw [this]

theorem joinPath_getLast? (names : List (List Char)) (hne : names ≠ [])
    (hn : ∀ n ∈ names, n ≠ []) :
    ∃ n ∈ names, ∃ c ∈ n, (joinPath names).getLast? = some c := by
  induction names with
  | nil => exact absurd rfl hne
  | cons n ns ih =>
    cases ns with
    | nil =>
      have hnn := hn n (by simp)
      refine ⟨n, by simp, n.getLast hnn, List.getLast_mem hnn, ?_⟩
      simp [joinPath, List.getLast?_eq_getLast _ hnn]
    | cons m ms =>
      obtain ⟨k, hk, c, hc, hlast⟩ := ih (by simp) (fun x hx => hn x (by simp [hx]))
      refine ⟨k, by simp [hk], c, hc, ?_⟩
      have : joinPath (n :: m :: ms) = n ++ '\\' :: joinPath (m :: ms) := rfl
      rw [this, List.getLast?_append, List.getLast?_cons, hlast]
      simp

theorem not_mem_joinPath (names : List (List Char)) (c : Char) (hc : c ≠ '\\')
    (hn : ∀ n ∈ names, c ∉ n) : c ∉ joinPath names := by
  induction names with
  | nil => simp [joinPath]
  | cons n ns ih =>
    cases ns with
    | nil => simpa [joinPath] using hn n (by simp)
    | cons m ms =>
      have h1 := hn n (by simp)
      have h2 := ih (fun x hx => hn x (by simp [hx]))
      have : joinPath (n :: m :: ms) = n ++ '\\' :: joinPath (m :: ms) := rfl
      rw [this]
      simp [h1, h2, hc]

theorem NormalizeFilePath_id (s : List Char) (h : '/' ∉ s) : NormalizeFilePath s = s := by
  induction s with
  | nil => rfl
  | cons x xs ih =>
    have hx : x ≠ '/' := fun hxc => h (by simp [hxc])
    have hxs : '/' ∉ xs := fun hm => h (by simp [hm])
    have := ih hxs
    simp only [NormalizeFilePath] at this ⊢
    simp [hx, this]

theorem Reaches.names_ok {l : List GdfxFileEntry} {names : List (List Char)} {e : GdfxFileEntry}
    (hr : Reaches l names e) :
    NamesOK l → (∀ p, InTree p l → NamesOK p.files) →
    ∀ n ∈ names, n ≠ [] ∧ '\\' ∉ n ∧ '/' ∉ n := by
  induction hr with
  | @last l e he =>
    intro hl _ n hn
    simp at hn
    subst hn
    exact hl.2 e he
  | @step l p e ns hp _ ih =>
    intro hl ht n hn
    rcases List.mem_cons.mp hn with h | h
    · subst h; exact hl.2 p hp
    · exact ih (ht p (.here hp)) (fun q hq => ht q (.under hp hq)) n h

/-- C3: in a tree whose sibling names are pairwise distinct, non-empty and free
of separators, the path `n1\n2\...\nk` of an entry `e` reached by the chain of
names `n1, ..., nk` resolves to exactly `e`, within `k` turns of the loop. -/
theorem GetFileEntry_resolves (iso : ISO) (names : List (List Char)) (e : GdfxFileEntry)
    (hroot : NamesOK iso.root) (htree : ∀ p, InTree p iso.root → NamesOK p.files)
    (hr : Reaches iso.root names e) (fuel : Nat) (hf : names.length ≤ fuel) :
    GetFileEntry fuel iso (joinPath names) = some (.ok e) := by
  have hok := hr.names_ok hroot htree
  have hslash : '/' ∉ joinPath names :=
    not_mem_joinPath names '/' (by decide) (fun n hn => (hok n hn).2.2)
  obtain ⟨n, hn, c, hc, hlast⟩ := joinPath_getLast? names hr.ne_nil (fun n hn => (hok n hn).1)
  have hcne : c ≠ '\\' := fun h => (hok n hn).2.1 (h ▸ hc)
  unfold GetFileEntry
  simp only [NormalizeFilePath_id _ hslash, strAt_last _ _ hlast, if_neg hcne]
  exact GetFileEntry.loop_resolves _ hr hroot htree fuel none hf
/-- C3, evaluated: `dir\x` resolves to the file `x` of the directory `dir`. -/
theorem GetFileEntry_resolves_witness :
    NamesOK (isoWithRoot sampleTree).root ∧
    Reaches (isoWithRoot sampleTree).root ["dir".toList, "x".toList] (sampleFile "x" 3) ∧
    GetFileEntry 2 (isoWithRoot sampleTree) "dir\\x".toList = some (.ok (sampleFile "x" 3)) := by
  have hr : Reaches (isoWithRoot sampleTree).root ["dir".toList, "x".toList] (sampleFile "x" 3) :=
    Reaches.step (p := sampleDir "dir" [sampleFile "x" 3]) (List.Mem.head _)
      (Reaches.last (e := sampleFile "x" 3) (List.Mem.head _))
  have ht : ∀ p, InTree p (isoWithRoot sampleTree).root → NamesOK p.files := by
    intro p hp
    have hmem : ∀ q, q ∈ (isoWithRoot sampleTree).root →
        q = sampleDir "dir" [sampleFile "x" 3] ∨ q = sampleFile "default.xex" 5 := by
      intro q hq
      simpa [isoWithRoot, sampleTree] using hq
    have hx : ∀ q, InTree q [sampleFile "x" 3] → NamesOK q.files := by
      intro q hq
      cases hq with
      | here h => simp at h; subst h; decide
      | under h h2 => simp at h; subst h; cases h2 with
        | here h3 => cases h3
        | under h3 _ => cases h3
    cases hp with
    | here h =>
      rcases hmem p h with rfl | rfl <;> decide
    | under h h2 =>
      rcases hmem _ h with rfl | rfl
      · exact hx p h2
      · cases h2 with
        | here h3 => cases h3
        | under h3 _ => cases h3
  exact ⟨by decide, hr, GetFileEntry_resolves (isoWithRoot sampleTree) _ _ (by decide) ht hr 2 (by decide)⟩

theorem GetFileEntry.loop_stale (filePath : List Char) :
    ∀ fuel : Nat, GetFileEntry.loop filePath fuel [sampleFile "x" 3] "missing".toList none
      (some (sampleDir "dir" [sampleFile "x" 3])) = none
  | 0 => rfl
  | fuel + 1 => by
    have step : GetFileEntry.loop filePath (fuel + 1) [sampleFile "x" 3] "missing".toList none
          (some (sampleDir "dir" [sampleFile "x" 3]))
        = GetFileEntry.loop filePath fuel [sampleFile "x" 3] "missing".toList none
          (some (sampleDir "dir" [sampleFile "x" 3])) := rfl
    rw [step]
    exact GetFileEntry.loop_stale filePath fuel

/-- C4, at the input `dir\missing` on a tree whose directory `dir` has no child
`missing`: `GetFileEntry` neither returns nor throws, however many turns of the
loop it is given, although a lone `missing` is reported as not found. -/
theorem GetFileEntry_missing_final_never_ends :
    (sampleDir "dir" [sampleFile "x" 3]).files.find?
        (fun curEntry => decide (curEntry.name = "missing".toList)) = none ∧
    (∀ fuel : Nat, GetFileEntry fuel (isoWithRoot sampleTree) "dir\\missing".toList = none) ∧
    GetFileEntry 1 (isoWithRoot sampleTree) "missing".toList
      = some (.error (unableToFind "missing".toList)) := by
  refine ⟨rfl, ?_, rfl⟩
  intro fuel
  cases fuel with
  | zero => rfl
  | succ fuel =>
    have step : GetFileEntry (fuel + 1) (isoWithRoot sampleTree) "dir\\missing".toList
        = GetFileEntry.loop "dir\\missing".toList fuel [sampleFile "x" 3] "missing".toList none
          (some (sampleDir "dir" [sampleFile "x" 3])) := rfl
    rw [step]
    exact GetFileEntry.loop_stale _ fuel

theorem Reaches.cons_inv {l : List GdfxFileEntry} {n : List Char} {ns : List (List Char)}
    {e : GdfxFileEntry} (h : Reaches l (n :: ns) e) :
    (ns = [] ∧ e ∈ l ∧ e.name = n) ∨ (∃ p ∈ l, p.name = n ∧ Reaches p.files ns e) := by
  generalize hm : n :: ns = names at h
  cases h with
  | last he =>
    injection hm with h1 h2
    exact Or.inl ⟨h2, he, h1.symm⟩
  | step hp hrest =>
    injection hm with h1 h2
    subst h2
    exact Or.inr ⟨_, hp, h1.symm, hrest⟩

/-- C5, at the input `dir\missing\x` on a tree whose directory `dir` holds `x`
and no `missing`: `GetFileEntry` returns the entry `dir\x`, although no chain
of entries carries the names `dir`, `missing`, `x`. -/
theorem GetFileEntry_skips_missing_segment :
    GetFileEntry 3 (isoWithRoot sampleTree) "dir\\missing\\x".toList
      = some (.ok (sampleFile "x" 3)) ∧
    ¬ Reaches (isoWithRoot sampleTree).root ["dir".toList, "missing".toList, "x".toList]
        (sampleFile "x" 3) := by
  refine ⟨rfl, ?_⟩
  intro h
  rcases h.cons_inv with ⟨h0, _⟩ | ⟨p, hp, _, hrest⟩
  · exact absurd h0 (by simp)
  · have hp2 : p = sampleDir "dir" [sampleFile "x" 3] ∨ p = sampleFile "default.xex" 5 := by
      simpa [isoWithRoot, sampleTree] using hp
    rcases hp2 with rfl | rfl
    · rcases hrest.cons_inv with ⟨h0, _⟩ | ⟨q, hq, hname, _⟩
      · exact absurd h0 (by simp)
      · have : q = sampleFile "x" 3 := by simpa [sampleDir, GdfxFileEntry.empty] using hq
        subst this
        exact absurd hname (by decide)
    · rcases hrest.cons_inv with ⟨h0, _⟩ | ⟨q, hq, _, _⟩
      · exact absurd h0 (by simp)
      · cases hq

/-- C6, at the input `default.xex\` on a tree whose root holds `default.xex`:
the path without the trailing separator resolves to the entry, the path with
it throws `std::out_of_range`, whatever the fuel. -/
theorem GetFileEntry_trailing_separator_single_segment (fuel : Nat) :
    GetFileEntry (fuel + 1) (isoWithRoot sampleTree) "default.xex".toList
      = some (.ok (sampleFile "default.xex" 5)) ∧
    GetFileEntry (fuel + 1) (isoWithRoot sampleTree) "default.xex\\".toList
      = some (.error .out_of_range) :=
  ⟨rfl, rfl⟩

/-! ## Directory listing: the closing sort -/

theorem sortInsert_directory (d : Decls) (x : GdfxFileEntry) (l : List GdfxFileEntry)
    (hx : isDirectory d x = true) :
    sortInsert (DirectoryFirstCompareGdfxEntries d) x l = x :: l := by
  cases l with
  | nil => rfl
  | cons y ys => simp [sortInsert, DirectoryFirstCompareGdfxEntries, hx]

theorem sortInsert_file (d : Decls) (x : GdfxFileEntry) (ds fs : List GdfxFileEntry)
    (hx : isDirectory d x = false) (hds : ∀ y ∈ ds, isDirectory d y = true)
    (hfs : ∀ y ∈ fs, isDirectory d y = false) :
    sortInsert (DirectoryFirstCompareGdfxEntries d) x (ds ++ fs) = ds ++ x :: fs := by
  induction ds with
  | nil =>
    cases fs with
    | nil => rfl
    | cons y ys =>
      have := hfs y (by simp)
      simp [sortInsert, DirectoryFirstCompareGdfxEntries, this]
  | cons y ys ih =>
    have hy := hds y (by simp)
    have := ih (fun z hz => hds z (by simp [hz]))
    simp [sortInsert, DirectoryFirstCompareGdfxEntries, hy, hx, this]

theorem stableSort_eq (d : Decls) (l : List GdfxFileEntry) :
    stableSort (DirectoryFirstCompareGdfxEntries d) l
      = l.filter (fun e => isDirectory d e) ++ l.filter (fun e => !isDirectory d e) := by
  induction l with
  | nil => rfl
  | cons x xs ih =>
    simp only [stableSort, ih]
    cases hx : isDirectory d x
    · rw [sortInsert_file d x _ _ hx (fun y hy => (List.mem_filter.mp hy).2)
        (fun y hy => by simpa using (List.mem_filter.mp hy).2)]
      simp [List.filter_cons, hx]
    · rw [sortInsert_directory d x _ hx]
      simp [List.filter_cons, hx]

theorem pairwise_directories_files (d : Decls) (ds fs : List GdfxFileEntry)
    (hds : ∀ y ∈ ds, isDirectory d y = true) (hfs : ∀ y ∈ fs, isDirectory d y = false) :
    (ds ++ fs).Pairwise (fun a b => DirectoryFirstCompareGdfxEntries d b a = false) := by
  rw [List.pairwise_append]
  refine ⟨?_, ?_, ?_⟩
  · refine List.Pairwise.imp_of_mem ?_
      (List.pairwise_of_forall (fun _ _ => trivial) : List.Pairwise (fun _ _ => True) _)
    intro a b ha _ _
    simp [DirectoryFirstCompareGdfxEntries, hds a ha]
  · refine List.Pairwise.imp_of_mem ?_
      (List.pairwise_of_forall (fun _ _ => trivial) : List.Pairwise (fun _ _ => True) _)
    intro a b _ hb _
    simp [DirectoryFirstCompareGdfxEntries, hfs b hb]
  · intro a ha b _
    simp [DirectoryFirstCompareGdfxEntries, hds a ha]

/-- The stable insertion sort meets the contract of `std::sort`. -/
theorem stableSort_sortsBy (d : Decls) :
    SortsBy stableSort (DirectoryFirstCompareGdfxEntries d) := by
  intro l
  rw [stableSort_eq]
  exact ⟨List.filter_append_perm _ l,
    pairwise_directories_files d _ _ (fun y hy => (List.mem_filter.mp hy).2)
      (fun y hy => by simpa using (List.mem_filter.mp hy).2)⟩

theorem mem_std_sort (d : Decls) (hs : SortsBy d.std_sort (DirectoryFirstCompareGdfxEntries d))
    (l : List GdfxFileEntry) (x : GdfxFileEntry) :
    x ∈ d.std_sort (DirectoryFirstCompareGdfxEntries d) l ↔ x ∈ l :=
  (hs l).1.mem_iff

theorem DirsFirst_std_sort (d : Decls) (hs : SortsBy d.std_sort (DirectoryFirstCompareGdfxEntries d))
    (l : List GdfxFileEntry) :
    DirsFirst d (d.std_sort (DirectoryFirstCompareGdfxEntries d) l) := by
  refine (hs l).2.imp ?_
  intro a b h hab
  simp [DirectoryFirstCompareGdfxEntries, hab.1, hab.2] at h

theorem InTree_iff (e : GdfxFileEntry) (l : List GdfxFileEntry) :
    InTree e l ↔ e ∈ l ∨ ∃ p ∈ l, InTree e p.files := by
  constructor
  · intro h
    cases h with
    | here h => exact Or.inl h
    | under hp h => exact Or.inr ⟨_, hp, h⟩
  · rintro (h | ⟨p, hp, h⟩)
    · exact .here h
    · exact .under hp h

theorem not_InTree_nil (e : GdfxFileEntry) : ¬ InTree e [] := by
  rw [InTree_iff]; simp

theorem InTree_congr {l l' : List GdfxFileEntry} (h : ∀ x, x ∈ l ↔ x ∈ l') (e : GdfxFileEntry) :
    InTree e l ↔ InTree e l' := by
  rw [InTree_iff, InTree_iff]
  simp only [h]

theorem InTree_append_singleton (e c : GdfxFileEntry) (l : List GdfxFileEntry) :
    InTree e (l ++ [c]) ↔ InTree e l ∨ e = c ∨ InTree e c.files := by
  rw [InTree_iff, InTree_iff]
  constructor
  · rintro (h | ⟨p, hp, h⟩)
    · rcases List.mem_append.mp h with h | h
      · exact Or.inl (Or.inl h)
      · exact Or.inr (Or.inl (by simpa using h))
    · rcases List.mem_append.mp hp with hp | hp
      · exact Or.inl (Or.inr ⟨p, hp, h⟩)
      · have : p = c := by simpa using hp
        subst this
        exact Or.inr (Or.inr h)
  · rintro ((h | ⟨p, hp, h⟩) | rfl | h)
    · exact Or.inl (List.mem_append.mpr (Or.inl h))
    · exact Or.inr ⟨p, List.mem_append.mpr (Or.inl hp), h⟩
    · exact Or.inl (by simp)
    · exact Or.inr ⟨c, by simp, h⟩

theorem ChildrenDirsFirst_nil (d : Decls) : ChildrenDirsFirst d [] :=
  fun e h => absurd h (not_InTree_nil e)

theorem DirsFirst_nil (d : Decls) : DirsFirst d [] := List.Pairwise.nil

theorem ChildrenDirsFirst_push (d : Decls) (l : List GdfxFileEntry) (c : GdfxFileEntry)
    (hl : ChildrenDirsFirst d l) (hc : DirsFirst d c.files) (hcc : ChildrenDirsFirst d c.files) :
    ChildrenDirsFirst d (l ++ [c]) := by
  intro e he
  rcases (InTree_append_singleton e c l).mp he with h | rfl | h
  · exact hl e h
  · exact hc
  · exact hcc e h

theorem ChildrenDirsFirst_std_sort (d : Decls)
    (hs : SortsBy d.std_sort (DirectoryFirstCompareGdfxEntries d)) (l : List GdfxFileEntry)
    (hl : ChildrenDirsFirst d l) :
    ChildrenDirsFirst d (d.std_sort (DirectoryFirstCompareGdfxEntries d) l) :=
  fun e he => hl e ((InTree_congr (mem_std_sort d hs l) e).mp he)

theorem GetFileMagic_files (d : Decls) (iso : ISO) (c : GdfxFileEntry) :
    (GetFileMagic d iso c).2.1.files = c.files := by
  unfold GetFileMagic
  simp only []
  split
  · split <;> rfl
  · rfl

/-- What `advance` appends: the record with its path and magic set. -/
theorem ReadFileListing.advance_cases (d : Decls) (iso : ISO) (L : Locals) (cur : GdfxFileEntry) :
    (∃ iso', ReadFileListing.advance d iso L cur = .inl (ReadFileListing.finish d iso'
        (L.entryList ++ [(GetFileMagic d iso { cur with filePath := L.path }).2.1])) ) ∨
    (∃ next, ReadFileListing.advance d iso L cur = .inr next ∧
        next.2.entryList = L.entryList ++ [(GetFileMagic d iso { cur with filePath := L.path }).2.1] ∧
        next.2.current.files = []) := by
  unfold ReadFileListing.advance
  simp only []
  split
  · split
    · exact Or.inl ⟨_, rfl⟩
    · exact Or.inr ⟨_, rfl, rfl, rfl⟩
  · exact Or.inr ⟨_, rfl, rfl, rfl⟩
theorem ReadFileListing.advance_eq {d : Decls} {iso : ISO} {L : Locals} {cur : GdfxFileEntry}
    {A : Listing ⊕ (ISO × Locals)} (h : ReadFileListing.advance d iso L cur = A) :
    (∃ iso', A = .inl (ReadFileListing.finish d iso'
        (L.entryList ++ [(GetFileMagic d iso { cur with filePath := L.path }).2.1]))) ∨
    (∃ next, A = .inr next ∧
        next.2.entryList = L.entryList ++ [(GetFileMagic d iso { cur with filePath := L.path }).2.1] ∧
        next.2.current.files = []) := by
  subst h
  exact ReadFileListing.advance_cases d iso L cur

theorem ReadFileListing.finish_sorted (d : Decls)
    (hs : SortsBy d.std_sort (DirectoryFirstCompareGdfxEntries d)) (iso : ISO)
    (l : List GdfxFileEntry) (hl : ChildrenDirsFirst d l) :
    DirsFirst d (ReadFileListing.finish d iso l).entryList ∧
    ChildrenDirsFirst d (ReadFileListing.finish d iso l).entryList :=
  ⟨DirsFirst_std_sort d hs l, ChildrenDirsFirst_std_sort d hs l hl⟩

theorem ChildrenDirsFirst_push_magic (d : Decls) (l : List GdfxFileEntry) (iso : ISO)
    (cur : GdfxFileEntry) (path : List Char)
    (hl : ChildrenDirsFirst d l) (hc : DirsFirst d cur.files)
    (hcc : ChildrenDirsFirst d cur.files) :
    ChildrenDirsFirst d (l ++ [(GetFileMagic d iso { cur with filePath := path }).2.1]) := by
  refine ChildrenDirsFirst_push d _ _ hl ?_ ?_
  · rw [GetFileMagic_files]; exact hc
  · rw [GetFileMagic_files]; exact hcc

theorem ReadFileListing.loop_sorted (d : Decls)
    (hs : SortsBy d.std_sort (DirectoryFirstCompareGdfxEntries d)) :
    ∀ (fuel : Nat) (iso : ISO) (L : Locals) (r : Listing),
      ReadFileListing.loop d fuel iso L = some r →
      ChildrenDirsFirst d L.entryList → DirsFirst d L.current.files →
      ChildrenDirsFirst d L.current.files →
      DirsFirst d r.entryList ∧ ChildrenDirsFirst d r.entryList := by
  intro fuel
  induction fuel with
  | zero =>
    intro iso L r h
    simp [ReadFileListing.loop] at h
  | succ fuel ih =>
    intro iso L r h hl hc hcc
    rw [ReadFileListing.loop] at h
    simp only [] at h
    split at h
    · cases h
      exact ReadFileListing.finish_sorted d hs _ _ hl
    · split at h
      · cases h
        exact ReadFileListing.finish_sorted d hs _ _ hl
      · split at h
        · split at h
          · cases h
          · rename_i inner hinner
            have hin := ih _ _ _ hinner hcc (DirsFirst_nil d) (ChildrenDirsFirst_nil d)
            generalize hA : ReadFileListing.advance d _ _ _ = A at h
            rcases ReadFileListing.advance_eq hA with ⟨iso', rfl⟩ | ⟨next, rfl, hlist, hfiles⟩
            · cases h
              exact ReadFileListing.finish_sorted d hs _ _
                (ChildrenDirsFirst_push_magic d _ _ _ _ hl hin.1 hin.2)
            · refine ih _ _ _ h ?_ ?_ ?_
              · rw [hlist]; exact ChildrenDirsFirst_push_magic d _ _ _ _ hl hin.1 hin.2
              · rw [hfiles]; exact DirsFirst_nil d
              · rw [hfiles]; exact ChildrenDirsFirst_nil d
        · generalize hA : ReadFileListing.advance d _ _ _ = A at h
          rcases ReadFileListing.advance_eq hA with ⟨iso', rfl⟩ | ⟨next, rfl, hlist, hfiles⟩
          · cases h
            exact ReadFileListing.finish_sorted d hs _ _
              (ChildrenDirsFirst_push_magic d _ _ _ _ hl hc hcc)
          · refine ih _ _ _ h ?_ ?_ ?_
            · rw [hlist]; exact ChildrenDirsFirst_push_magic d _ _ _ _ hl hc hcc
            · rw [hfiles]; exact DirsFirst_nil d
            · rw [hfiles]; exact ChildrenDirsFirst_nil d
/-- C7: when `ReadFileListing` completes on a fresh list, the returned list and
the children list of every entry of the tree, at every depth, have every entry
with the directory bit before every entry without it, whatever `std::sort` the
library has; the three ways out of the routine are all covered, since nothing
is assumed about the run but that it ended. -/
theorem ReadFileListing_directories_first (d : Decls)
    (hs : SortsBy d.std_sort (DirectoryFirstCompareGdfxEntries d)) (fuel : Nat) (iso : ISO)
    (sector : Nat) (size : Int) (path : List Char) (r : Listing)
    (h : ReadFileListing d fuel iso [] sector size path = some r) :
    DirsFirst d r.entryList ∧ ∀ e, InTree e r.entryList → DirsFirst d e.files := by
  unfold ReadFileListing at h
  exact ReadFileListing.loop_sorted d hs fuel _ _ r h (ChildrenDirsFirst_nil d) (DirsFirst_nil d)
    (ChildrenDirsFirst_nil d)

/-- C7, evaluated on the sample image, whose root listing ends at the
sentinel, whose directory `d` ends with its byte budget and whose directory `e`
ends at a record that fails to parse. -/
theorem ReadFileListing_directories_first_witness :
    SortsBy sampleDecls.std_sort (DirectoryFirstCompareGdfxEntries sampleDecls) ∧
    ∃ r, ReadFileListing sampleDecls 8 sampleISO [] 1 0x40 [] = some r ∧
      r.entryList.map (fun e => (e.name, e.files.map (fun c => c.name)))
        = [("d".toList, ["z".toList, "y".toList]), ("e".toList, []), ("b".toList, [])] ∧
      DirsFirst sampleDecls r.entryList ∧
      ∀ e, InTree e r.entryList → DirsFirst sampleDecls e.files := by
  have hv : (ReadFileListing sampleDecls 8 sampleISO [] 1 0x40 []).map
      (fun r => r.entryList.map (fun e => (e.name, e.files.map (fun c => c.name))))
      = some [("d".toList, ["z".toList, "y".toList]), ("e".toList, []), ("b".toList, [])] := by
    decide
  obtain ⟨r, hr, hnames⟩ := Option.map_eq_some'.mp hv
  exact ⟨stableSort_sortsBy sampleDecls, r, hr, hnames,
    ReadFileListing_directories_first sampleDecls (stableSort_sortsBy sampleDecls) 8 sampleISO 1
      0x40 [] r hr⟩

/-! ## Directory listing: the step to the next record -/

theorem entryStride_eq (n : Nat) (hn : n ≤ 255) : entryStride n = (n + 0x11) / 4 * 4 := by
  interval_cases n <;> rfl

theorem GetFileMagic_nameLen (d : Decls) (iso : ISO) (c : GdfxFileEntry) :
    (GetFileMagic d iso c).2.1.nameLen = c.nameLen := by
  unfold GetFileMagic
  simp only []
  split
  · split <;> rfl
  · rfl

theorem ReadFileListing.advance_last_read (d : Decls) (iso : ISO) (L : Locals)
    (cur : GdfxFileEntry) :
    (ReadFileListing.isoAfter (ReadFileListing.advance d iso L cur)).io.reads.getLast?
      = some (add64 L.entryAddress (entryStride cur.nameLen), 4) := by
  have hn := GetFileMagic_nameLen d iso { cur with filePath := L.path }
  unfold ReadFileListing.advance
  simp only [hn]
  split
  · split <;>
      simp [ReadFileListing.isoAfter, ReadFileListing.finish, BaseStream.ReadDword,
        BaseStream.ReadBytes, BaseStream.SetPosition]
  · simp [ReadFileListing.isoAfter, BaseStream.ReadDword, BaseStream.ReadBytes,
      BaseStream.SetPosition]

/-- C9, as the code has it: for a record with name length `n <= 255` at
`entryAddress`, the address at which `ReadFileListing` looks for the next
record (where it reads the four bytes that may be the sentinel) is
`entryAddress` plus `n + 0x11` rounded down to a multiple of 4, the largest
multiple of 4 that is `<= n + 0x11`, which is the smallest multiple of 4 that
is `>= n + 0xE`; and the next turn of the loop, if there is one, finds the
stream at its `entryAddress`. -/
theorem ReadFileListing_next_record_address (d : Decls) (iso : ISO) (L : Locals)
    (cur : GdfxFileEntry) (hn : cur.nameLen ≤ 255) (ha : L.entryAddress + 0x110 < 2 ^ 64) :
    (ReadFileListing.isoAfter (ReadFileListing.advance d iso L cur)).io.reads.getLast?
      = some (L.entryAddress + (cur.nameLen + 0x11) / 4 * 4, 4) ∧
    ((cur.nameLen + 0x11) / 4 * 4) % 4 = 0 ∧
    (cur.nameLen + 0x11) / 4 * 4 ≤ cur.nameLen + 0x11 ∧
    (∀ m, m % 4 = 0 → m ≤ cur.nameLen + 0x11 → m ≤ (cur.nameLen + 0x11) / 4 * 4) ∧
    (cur.nameLen + 0x11) / 4 * 4 = roundUpToMultipleOf4 (cur.nameLen + 0xE) ∧
    (∀ next, ReadFileListing.advance d iso L cur = .inr next →
      next.1.io.pos = next.2.entryAddress) := by
  refine ⟨?_, by omega, by omega, by omega, by unfold roundUpToMultipleOf4; omega, ?_⟩
  · rw [ReadFileListing.advance_last_read, entryStride_eq _ hn]
    unfold add64
    rw [Nat.mod_eq_of_lt (by omega)]
  · intro next h
    unfold ReadFileListing.advance at h
    simp only [] at h
    split at h
    · split at h
      · cases h
      · cases h; rfl
    · cases h; rfl

/-- C9, evaluated: the record `b` of the sample image, one character long, at
address `0x40`. -/
theorem ReadFileListing_next_record_address_witness :
    (sampleFile "b" 4).nameLen ≤ 255 ∧
    (ReadFileListing.enter sampleDecls sampleISO [] 1 0x40 []).2.entryAddress = 0x40 ∧
    (ReadFileListing.isoAfter (ReadFileListing.advance sampleDecls sampleISO
        (ReadFileListing.enter sampleDecls sampleISO [] 1 0x40 []).2
        (sampleFile "b" 4))).io.reads.getLast?
      = some (0x40 + (1 + 0x11) / 4 * 4, 4) :=
  ⟨by decide, by decide,
   (ReadFileListing_next_record_address sampleDecls sampleISO
      (ReadFileListing.enter sampleDecls sampleISO [] 1 0x40 []).2 (sampleFile "b" 4)
      (by decide) (by decide)).1⟩

/-- C9 as stated fails: after the record `b` of the sample image, one character
long, at address `0x40`, the next record is looked for at `0x50`, which is not
`0x40 + roundUpToMultipleOf4 (1 + 0x11) = 0x54`. -/
theorem ReadFileListing_next_record_not_rounded_up :
    (ReadFileListing.enter sampleDecls sampleISO [] 1 0x40 []).2.entryAddress = 0x40 ∧
    (ReadFileListing.isoAfter (ReadFileListing.advance sampleDecls sampleISO
        (ReadFileListing.enter sampleDecls sampleISO [] 1 0x40 []).2
        (sampleFile "b" 4))).io.reads.getLast? = some (0x50, 4) ∧
    0x40 + roundUpToMultipleOf4 ((sampleFile "b" 4).nameLen + 0x11) = 0x54 ∧
    (ReadFileListing.isoAfter (ReadFileListing.advance sampleDecls sampleISO
        (ReadFileListing.enter sampleDecls sampleISO [] 1 0x40 []).2
        (sampleFile "b" 4))).io.reads.getLast?
      ≠ some (0x40 + roundUpToMultipleOf4 ((sampleFile "b" 4).nameLen + 0x11), 4) := by
  decide

/-! ## Magic classification: theorems -/

/-- C10: for an entry whose lower-cased `filePath` is neither empty nor
`$systemupdate/`, `GetFileMagic` returns 0, stores 0 in the entry's `magic`
and leaves the object untouched, its stream with it: the cursor stands where
it stood and no read is added to the record of reads. -/
theorem GetFileMagic_outside_root (d : Decls) (iso : ISO) (entry : GdfxFileEntry)
    (h1 : entry.filePath.map Char.toLower ≠ [])
    (h2 : entry.filePath.map Char.toLower ≠ "$systemupdate/".toList) :
    GetFileMagic d iso entry = (0, { entry with magic := 0 }, iso) ∧
    (GetFileMagic d iso entry).2.2.io.pos = iso.io.pos ∧
    (GetFileMagic d iso entry).2.2.io.reads = iso.io.reads := by
  have h : GetFileMagic d iso entry = (0, { entry with magic := 0 }, iso) := by
    unfold GetFileMagic
    simp only []
    rw [if_neg (by rintro (h | h) <;> contradiction)]
  rw [h]
  exact ⟨rfl, rfl, rfl⟩

/-- C10, evaluated: an entry of the directory `d/` that carried a magic. -/
theorem GetFileMagic_outside_root_witness :
    ("d/".toList.map Char.toLower ≠ [] ∧ "d/".toList.map Char.toLower ≠ "$systemupdate/".toList) ∧
    (GetFileMagic sampleDecls sampleISO
        { sampleFile "y" 4 with filePath := "d/".toList, sector := 5, magic := 7 }).1 = 0 ∧
    (GetFileMagic sampleDecls sampleISO
        { sampleFile "y" 4 with filePath := "d/".toList, sector := 5, magic := 7 }).2.1.magic = 0 ∧
    (GetFileMagic sampleDecls sampleISO
        { sampleFile "y" 4 with filePath := "d/".toList, sector := 5, magic := 7 }).2.2.io.reads
      = sampleISO.io.reads := by
  have h := GetFileMagic_outside_root sampleDecls sampleISO
    { sampleFile "y" 4 with filePath := "d/".toList, sector := 5, magic := 7 }
    (by decide) (by decide)
  exact ⟨by decide, by rw [h.1], by rw [h.1], h.2.2⟩

/-- C11: for an entry whose `filePath` is empty or is `$systemupdate/` up to
case, `GetFileMagic` returns the big-endian value of the first four bytes of
the entry's content when the content is at least four bytes long and 0
otherwise, and stores the value it returns in the entry's `magic`. -/
theorem GetFileMagic_root (d : Decls) (iso : ISO) (entry : GdfxFileEntry)
    (h : entry.filePath.map Char.toLower = [] ∨
         entry.filePath.map Char.toLower = "$systemupdate/".toList) :
    (GetFileMagic d iso entry).1 =
      (if 4 ≤ entry.size then
        iso.io.data (SectorToAddress d iso entry.sector) % 256 * 2 ^ 24
          + iso.io.data (SectorToAddress d iso entry.sector + 1) % 256 * 2 ^ 16
          + iso.io.data (SectorToAddress d iso entry.sector + 2) % 256 * 2 ^ 8
          + iso.io.data (SectorToAddress d iso entry.sector + 3) % 256
       else 0) ∧
    (GetFileMagic d iso entry).2.1 = { entry with magic := (GetFileMagic d iso entry).1 } := by
  unfold GetFileMagic
  simp only [if_pos h]
  by_cases hs : 4 ≤ entry.size
  · have hl : IsoStream.Length entry ≥ 4 := hs
    simp only [if_pos hl, if_pos hs]
    refine ⟨?_, trivial⟩
    simp [IsoStream.ReadDword, BaseStream.ReadBytes, BaseStream.SetPosition, BaseStream.bytesAt,
      BaseStream.dwordOf, List.range_succ]
    ring
  · have hl : ¬ IsoStream.Length entry ≥ 4 := hs
    simp only [if_neg hl, if_neg hs]
    exact ⟨trivial, trivial⟩

/-- C11, evaluated: the file `b` in the root of the sample image, whose content
starts with the bytes `43 4F 4E 20`. -/
theorem GetFileMagic_root_witness :
    ("".toList.map Char.toLower = [] ∨ "".toList.map Char.toLower = "$systemupdate/".toList) ∧
    (GetFileMagic sampleDecls sampleISO { sampleFile "b" 4 with sector := 5 }).1 = 0x434F4E20 ∧
    (GetFileMagic sampleDecls sampleISO { sampleFile "b" 4 with sector := 5 }).2.1.magic
      = 0x434F4E20 := by
  have h := GetFileMagic_root sampleDecls sampleISO { sampleFile "b" 4 with sector := 5 }
    (Or.inl rfl)
  have hv : (GetFileMagic sampleDecls sampleISO { sampleFile "b" 4 with sector := 5 }).1
      = 0x434F4E20 := by rw [h.1]; decide
  refine ⟨Or.inl rfl, hv, ?_⟩
  rw [h.2, hv]

/-! ## Extraction: the copy loop -/

theorem bytesAt_add (io : BaseStream) (a m n : Nat) :
    io.bytesAt a (m + n) = io.bytesAt a m ++ io.bytesAt (a + m) n := by
  simp only [BaseStream.bytesAt, List.range_add, List.map_append, List.map_map]
  congr 1
  apply List.map_congr_left
  intro i _
  simp [Nat.add_assoc]

theorem join_chunksFrom (io : BaseStream) (pos : Nat) (ns : List Nat) :
    (chunksFrom io pos ns).flatten = io.bytesAt pos ns.sum := by
  induction ns generalizing pos with
  | nil => simp [chunksFrom, BaseStream.bytesAt]
  | cons n ns ih => simp [chunksFrom, ih, bytesAt_add]

theorem chunksFrom_lengths (io : BaseStream) (pos : Nat) (ns : List Nat) :
    (chunksFrom io pos ns).map List.length = ns := by
  induction ns generalizing pos with
  | nil => rfl
  | cons n ns ih => simp [chunksFrom, ih, BaseStream.bytesAt]

theorem chunksFrom_data (io io' : BaseStream) (h : io'.data = io.data) (pos : Nat)
    (ns : List Nat) : chunksFrom io' pos ns = chunksFrom io pos ns := by
  induction ns generalizing pos with
  | nil => rfl
  | cons n ns ih => simp [chunksFrom, ih, BaseStream.bytesAt, h]

/-- The stream and the destination after the copy loop has run over the turns
`xs`: the lengths of the turns are read one behind the other and written as
they are read. -/
theorem ExtractFileHelper.fold_stream (d : Decls) (size totalReads totalProgress : Nat)
    (progress : Bool) (xs : List Nat) (s : CopyState) :
    ((xs.foldl (ExtractFileHelper.step d size totalReads totalProgress progress) s).written
      = s.written ++ chunksFrom s.iso.io s.iso.io.pos
          (xs.map (ExtractFileHelper.numBytesToCopy d size totalReads))) ∧
    ((xs.foldl (ExtractFileHelper.step d size totalReads totalProgress progress) s).iso.io.reads
      = s.iso.io.reads ++ readsFrom s.iso.io.pos
          (xs.map (ExtractFileHelper.numBytesToCopy d size totalReads))) ∧
    ((xs.foldl (ExtractFileHelper.step d size totalReads totalProgress progress) s).iso.io.data
      = s.iso.io.data) := by
  induction xs generalizing s with
  | nil => simp [chunksFrom, readsFrom]
  | cons x xs ih =>
    have h := ih (ExtractFileHelper.step d size totalReads totalProgress progress s x)
    simp only [List.foldl_cons, List.map_cons]
    refine ⟨?_, ?_, ?_⟩
    · rw [h.1]
      simp only [ExtractFileHelper.step, BaseStream.ReadBytes, chunksFrom, List.append_assoc,
        List.singleton_append]
      congr 2
      apply chunksFrom_data
      rfl
    · rw [h.2.1]
      simp [ExtractFileHelper.step, BaseStream.ReadBytes, readsFrom]
    · rw [h.2.2]
      simp [ExtractFileHelper.step, BaseStream.ReadBytes]

/-- The callback and the counter after the copy loop has run over the turns
`xs`: one call a turn, with the counter one up each time. -/
theorem ExtractFileHelper.fold_calls (d : Decls) (size totalReads totalProgress : Nat)
    (xs : List Nat) (s : CopyState) (c : Nat) (hc : s.curProgress = some c)
    (hfit : c + xs.length < 2 ^ 32) :
    ((xs.foldl (ExtractFileHelper.step d size totalReads totalProgress true) s).calls
      = s.calls ++ (List.range xs.length).map (fun j => (c + j + 1, totalProgress))) ∧
    ((xs.foldl (ExtractFileHelper.step d size totalReads totalProgress true) s).curProgress
      = some (c + xs.length)) := by
  induction xs generalizing s c with
  | nil => simp [hc]
  | cons x xs ih =>
    have hlt : c + 1 < 2 ^ 32 := by simp at hfit; omega
    have hmod : toDWORD (c + 1) = c + 1 := Nat.mod_eq_of_lt hlt
    have hc' : (ExtractFileHelper.step d size totalReads totalProgress true s x).curProgress
        = some (c + 1) := by
      simp [ExtractFileHelper.step, hc, hmod]
    have h := ih (ExtractFileHelper.step d size totalReads totalProgress true s x) (c + 1) hc'
      (by simp at hfit ⊢; omega)
    simp only [List.foldl_cons, List.length_cons]
    refine ⟨?_, ?_⟩
    · rw [h.1, List.range_succ_eq_map]
      simp only [ExtractFileHelper.step, hc, Option.map_some', Option.getD_some, if_true,
        hmod, List.map_cons, List.map_map, List.append_assoc,
        List.singleton_append]
      congr 2
      apply List.map_congr_left
      intro j _
      simp only [Function.comp, Prod.mk.injEq, and_true]
      omega
    · rw [h.2]
      congr 1
      omega
theorem ceil_div_eq (b size : Nat) (hb : 0 < b) :
    (size + b - 1) / b = if size % b ≠ 0 then size / b + 1 else size / b := by
  have hdm := Nat.div_add_mod size b
  have hlt := Nat.mod_lt size hb
  by_cases hr : size % b = 0
  · rw [if_neg (by simpa using hr)]
    have h1 : size + b - 1 = b * (size / b) + (b - 1) := by omega
    have h2 : (b - 1) / b = 0 := Nat.div_eq_of_lt (by omega)
    rw [h1, Nat.mul_add_div hb, h2, Nat.add_zero]
  · rw [if_pos hr]
    have h1 : size + b - 1 = b * (size / b + 1) + (size % b - 1) := by
      rw [Nat.mul_add, Nat.mul_one]; omega
    have h2 : (size % b - 1) / b = 0 := Nat.div_eq_of_lt (by omega)
    rw [h1, Nat.mul_add_div hb, h2, Nat.add_zero]

theorem sectionsPerFile_eq (d : Decls) (size : Nat) (hb : 0 < d.ISO_COPY_BUFFER_SIZE)
    (hfit : (size + d.ISO_COPY_BUFFER_SIZE - 1) / d.ISO_COPY_BUFFER_SIZE < 2 ^ 32) :
    sectionsPerFile d size = (size + d.ISO_COPY_BUFFER_SIZE - 1) / d.ISO_COPY_BUFFER_SIZE := by
  rw [ceil_div_eq _ _ hb] at hfit ⊢
  unfold sectionsPerFile toDWORD
  split
  · rename_i h
    rw [if_pos h] at hfit
    exact Nat.mod_eq_of_lt hfit
  · rename_i h
    rw [if_neg h] at hfit
    exact Nat.mod_eq_of_lt hfit

theorem ceil_div_le (b size : Nat) (hb : 0 < b) : (size + b - 1) / b ≤ size := by
  rw [Nat.div_le_iff_le_mul_add_pred hb]
  have : size * 1 ≤ b * size := by rw [Nat.mul_comm b]; exact Nat.mul_le_mul_left _ hb
  omega

theorem numBytesToCopy_map (d : Decls) (size : Nat) (hb : 0 < d.ISO_COPY_BUFFER_SIZE)
    (hfit : (size + d.ISO_COPY_BUFFER_SIZE - 1) / d.ISO_COPY_BUFFER_SIZE < 2 ^ 32) :
    (List.range (sectionsPerFile d size)).map
        (ExtractFileHelper.numBytesToCopy d size (sectionsPerFile d size))
      = chunkSizes d size := by
  rw [sectionsPerFile_eq d size hb hfit, ceil_div_eq _ _ hb]
  unfold chunkSizes
  by_cases hr : size % d.ISO_COPY_BUFFER_SIZE = 0
  · have hne : ¬ size % d.ISO_COPY_BUFFER_SIZE ≠ 0 := by simpa using hr
    rw [if_neg hne, if_neg hne, List.append_nil]
    have : ∀ x ∈ List.range (size / d.ISO_COPY_BUFFER_SIZE),
        ExtractFileHelper.numBytesToCopy d size (size / d.ISO_COPY_BUFFER_SIZE) x
          = d.ISO_COPY_BUFFER_SIZE := by
      intro x _
      simp [ExtractFileHelper.numBytesToCopy, hr]
    rw [List.map_congr_left this]
    simp
  · rw [if_pos hr, if_pos hr, List.range_succ, List.map_append]
    congr 1
    · have : ∀ x ∈ List.range (size / d.ISO_COPY_BUFFER_SIZE),
          ExtractFileHelper.numBytesToCopy d size (size / d.ISO_COPY_BUFFER_SIZE + 1) x
            = d.ISO_COPY_BUFFER_SIZE := by
        intro x hx
        have hlt : x < size / d.ISO_COPY_BUFFER_SIZE := List.mem_range.mp hx
        have hne : x ≠ size / d.ISO_COPY_BUFFER_SIZE := by omega
        simp [ExtractFileHelper.numBytesToCopy, hne]
      rw [List.map_congr_left this]
      simp
    · simp [ExtractFileHelper.numBytesToCopy, hr]

theorem chunkSizes_sum (d : Decls) (size : Nat) : (chunkSizes d size).sum = size := by
  unfold chunkSizes
  have hdm := Nat.div_add_mod size d.ISO_COPY_BUFFER_SIZE
  by_cases hr : size % d.ISO_COPY_BUFFER_SIZE = 0
  · simp [hr]
    rw [hr] at hdm
    rw [Nat.mul_comm]; omega
  · simp [hr]
    rw [Nat.mul_comm]; omega

theorem readsFrom_lengths (pos : Nat) (ns : List Nat) :
    (readsFrom pos ns).map Prod.snd = ns := by
  induction ns generalizing pos with
  | nil => rfl
  | cons n ns ih => simp [readsFrom, ih]
/-! ## Extraction of one file: theorems -/

/-- C12, as the code has it: for a file entry of size 0, `ExtractFile` with a
progress callback does not invoke the callback at all; it creates the
destination file and writes nothing to it, and reads nothing from the image. -/
theorem ExtractFile_empty (d : Decls) (iso : ISO) (out : Outside) (outDirectory : List Char)
    (fileEntry : GdfxFileEntry) (h : fileEntry.size = 0) :
    (ExtractFile d iso out outDirectory fileEntry true).out.calls = out.calls ∧
    (ExtractFile d iso out outDirectory fileEntry true).out.files
      = out.files ++ [(outDirectory ++ "/".toList ++ fileEntry.name, [])] ∧
    (ExtractFile d iso out outDirectory fileEntry true).iso.io.reads = iso.io.reads := by
  have ht : sectionsPerFile d fileEntry.size = 0 := by
    simp [sectionsPerFile, h, toDWORD]
  simp [ExtractFile, ExtractFileHelper, ht, BaseStream.SetPosition]

/-- C12 as amended, evaluated: an empty file `z`. -/
theorem ExtractFile_empty_witness :
    (sampleFile "z" 0).size = 0 ∧
    (ExtractFile sampleDecls sampleISO ⟨[], [], []⟩ "out".toList (sampleFile "z" 0) true).out.calls
      = [] ∧
    (ExtractFile sampleDecls sampleISO ⟨[], [], []⟩ "out".toList (sampleFile "z" 0) true).out.files
      = [("out/z".toList, [])] := by
  have h := ExtractFile_empty sampleDecls sampleISO ⟨[], [], []⟩ "out".toList (sampleFile "z" 0) rfl
  exact ⟨rfl, h.1, h.2.1⟩

/-- C12 as stated fails: for the empty file `z` the callback is not invoked
once with `(1, 1)`; it is not invoked. -/
theorem ExtractFile_empty_no_callback :
    (sampleFile "z" 0).size = 0 ∧
    (ExtractFile sampleDecls sampleISO ⟨[], [], []⟩ "out".toList (sampleFile "z" 0) true).out.calls
      ≠ [(1, 1)] ∧
    (ExtractFile sampleDecls sampleISO ⟨[], [], []⟩ "out".toList (sampleFile "z" 0) true).out.calls
      = [] := by
  decide

/-- C13, at a file of exactly one buffer (`0x10` bytes with the sample
constants): the callback is invoked once, with 1 unit completed of 2, so the
last call does not carry `unitsCompleted == totalUnits`; the copy loop counts
`size / ISO_COPY_BUFFER_SIZE` rounded up, which is 1, while `ExtractFile`
announces `size / ISO_COPY_BUFFER_SIZE + 1`, which is 2. -/
theorem ExtractFile_exact_multiple_total_off_by_one :
    ({ sampleFile "z" 0x10 with sector := 5 } : GdfxFileEntry).size
      = 1 * sampleDecls.ISO_COPY_BUFFER_SIZE ∧
    (ExtractFile sampleDecls sampleISO ⟨[], [], []⟩ "out".toList
      { sampleFile "z" 0x10 with sector := 5 } true).out.calls = [(1, 2)] ∧
    sectionsPerFile sampleDecls 0x10 = 1 ∧
    GetTotalCopyIterations sampleDecls [{ sampleFile "z" 0x10 with sector := 5 }] = 1 := by
  decide

/-- C14: for a file entry of `k` full buffers, `ExtractFile` invokes
the callback `k` times and takes `k` copy steps, each of which reads exactly
`ISO_COPY_BUFFER_SIZE` bytes from the image and writes exactly that many to
the destination. -/
theorem ExtractFile_exact_multiple (d : Decls) (iso : ISO) (out : Outside)
    (outDirectory : List Char) (fileEntry : GdfxFileEntry) (k : Nat)
    (hb : 0 < d.ISO_COPY_BUFFER_SIZE)
    (hsize : fileEntry.size = k * d.ISO_COPY_BUFFER_SIZE)
    (hfit : fileEntry.size < 2 ^ 32) :
    (∃ calls, (ExtractFile d iso out outDirectory fileEntry true).out.calls = out.calls ++ calls ∧
      calls.length = k ∧ calls.map Prod.fst = (List.range k).map (· + 1)) ∧
    (∃ chunks, (ExtractFile d iso out outDirectory fileEntry true).out.files
        = out.files ++ [(outDirectory ++ "/".toList ++ fileEntry.name, chunks)] ∧
      chunks.length = k ∧ ∀ c ∈ chunks, c.length = d.ISO_COPY_BUFFER_SIZE) ∧
    (∃ reads, (ExtractFile d iso out outDirectory fileEntry true).iso.io.reads
        = iso.io.reads ++ reads ∧
      reads.length = k ∧ ∀ r ∈ reads, r.2 = d.ISO_COPY_BUFFER_SIZE) := by
  have hceil : (fileEntry.size + d.ISO_COPY_BUFFER_SIZE - 1) / d.ISO_COPY_BUFFER_SIZE < 2 ^ 32 :=
    lt_of_le_of_lt (ceil_div_le _ _ hb) hfit
  have hmod : fileEntry.size % d.ISO_COPY_BUFFER_SIZE = 0 := by
    rw [hsize]; exact Nat.mul_mod_left _ _
  have hdiv : fileEntry.size / d.ISO_COPY_BUFFER_SIZE = k := by
    rw [hsize]; exact Nat.mul_div_cancel _ hb
  have hT : sectionsPerFile d fileEntry.size = k := by
    rw [sectionsPerFile_eq d _ hb hceil, ceil_div_eq _ _ hb, if_neg (by simpa using hmod), hdiv]
  have hnums := numBytesToCopy_map d fileEntry.size hb hceil
  have hcs : chunkSizes d fileEntry.size = List.replicate k d.ISO_COPY_BUFFER_SIZE := by
    simp [chunkSizes, hmod, hdiv]
  have hklt : k < 2 ^ 32 := by
    have : k ≤ k * d.ISO_COPY_BUFFER_SIZE := Nat.le_mul_of_pos_right _ hb
    omega
  refine ⟨?_, ?_, ?_⟩
  · have h := (ExtractFileHelper.fold_calls d fileEntry.size (sectionsPerFile d fileEntry.size)
      (toDWORD (fileEntry.size / d.ISO_COPY_BUFFER_SIZE + 1))
      (List.range (sectionsPerFile d fileEntry.size))
      { iso := { iso with io := iso.io.SetPosition (SectorToAddress d iso fileEntry.sector) },
        written := [], curProgress := some 0, calls := out.calls } 0 rfl
      (by simp [hT]; exact hklt)).1
    refine ⟨_, h, ?_, ?_⟩
    · simp [hT]
    · simp [hT, Function.comp_def]
  · have h := (ExtractFileHelper.fold_stream d fileEntry.size (sectionsPerFile d fileEntry.size)
      (toDWORD (fileEntry.size / d.ISO_COPY_BUFFER_SIZE + 1)) true
      (List.range (sectionsPerFile d fileEntry.size))
      { iso := { iso with io := iso.io.SetPosition (SectorToAddress d iso fileEntry.sector) },
        written := [], curProgress := some 0, calls := out.calls }).1
    rw [hnums, hcs] at h
    refine ⟨_, by simp only [ExtractFile, ExtractFileHelper]; rw [h], ?_, ?_⟩
    · rw [List.nil_append, ← List.length_map (f := List.length), chunksFrom_lengths]
      simp
    · intro c hc
      rw [List.nil_append] at hc
      have hl := chunksFrom_lengths
        (iso.io.SetPosition (SectorToAddress d iso fileEntry.sector))
        (iso.io.SetPosition (SectorToAddress d iso fileEntry.sector)).pos
        (List.replicate k d.ISO_COPY_BUFFER_SIZE)
      have : c.length ∈ (chunksFrom
          (iso.io.SetPosition (SectorToAddress d iso fileEntry.sector))
          (iso.io.SetPosition (SectorToAddress d iso fileEntry.sector)).pos
          (List.replicate k d.ISO_COPY_BUFFER_SIZE)).map List.length :=
        List.mem_map_of_mem _ hc
      rw [hl] at this
      exact (List.mem_replicate.mp this).2
  · have h := (ExtractFileHelper.fold_stream d fileEntry.size (sectionsPerFile d fileEntry.size)
      (toDWORD (fileEntry.size / d.ISO_COPY_BUFFER_SIZE + 1)) true
      (List.range (sectionsPerFile d fileEntry.size))
      { iso := { iso with io := iso.io.SetPosition (SectorToAddress d iso fileEntry.sector) },
        written := [], curProgress := some 0, calls := out.calls }).2.1
    rw [hnums, hcs] at h
    refine ⟨_, by simp only [ExtractFile, ExtractFileHelper]; rw [h]; rfl, ?_, ?_⟩
    · rw [← List.length_map (f := Prod.snd), readsFrom_lengths]
      simp
    · intro r hr
      have : r.2 ∈ (readsFrom
          (iso.io.SetPosition (SectorToAddress d iso fileEntry.sector)).pos
          (List.replicate k d.ISO_COPY_BUFFER_SIZE)).map Prod.snd :=
        List.mem_map_of_mem _ hr
      rw [readsFrom_lengths] at this
      exact (List.mem_replicate.mp this).2

/-- C14, evaluated: a file of two full buffers. -/
theorem ExtractFile_exact_multiple_witness :
    0 < sampleDecls.ISO_COPY_BUFFER_SIZE ∧
    ({ sampleFile "z" 0x20 with sector := 1 } : GdfxFileEntry).size
      = 2 * sampleDecls.ISO_COPY_BUFFER_SIZE ∧
    (∃ calls, (ExtractFile sampleDecls sampleISO ⟨[], [], []⟩ "out".toList
        { sampleFile "z" 0x20 with sector := 1 } true).out.calls = [] ++ calls ∧
      calls.length = 2 ∧ calls.map Prod.fst = (List.range 2).map (· + 1)) ∧
    (ExtractFile sampleDecls sampleISO ⟨[], [], []⟩ "out".toList
        { sampleFile "z" 0x20 with sector := 1 } true).iso.io.reads = [(0x40, 0x10), (0x50, 0x10)] :=
  ⟨by decide, by decide,
   (ExtractFile_exact_multiple sampleDecls sampleISO ⟨[], [], []⟩ "out".toList
      { sampleFile "z" 0x20 with sector := 1 } 2 (by decide) (by decide) (by decide)).1,
   by decide⟩

/-- C16: for a file entry with sector `s` and size `n`, the buffers
`ExtractFileHelper` writes to the destination, one after the other, are
exactly the `n` bytes of the stream from `SectorToAddress(s)` on; their lengths
are `ISO_COPY_BUFFER_SIZE`, but for a last one of `n mod ISO_COPY_BUFFER_SIZE`
when that is not zero, and add up to `n`. -/
theorem ExtractFileHelper_content (d : Decls) (outDirectory : List Char)
    (toExtract : GdfxFileEntry) (progress : Bool) (totalProgress : Nat) (st : ExtractState)
    (hb : 0 < d.ISO_COPY_BUFFER_SIZE) (hfit : toExtract.size < 2 ^ 32) :
    ∃ chunks, (ExtractFileHelper d outDirectory toExtract progress totalProgress st).out.files
        = st.out.files ++ [(outDirectory ++ "/".toList ++ toExtract.name, chunks)] ∧
      chunks.flatten
        = (List.range toExtract.size).map
            (fun i => st.iso.io.data (SectorToAddress d st.iso toExtract.sector + i)) ∧
      chunks.map List.length
        = List.replicate (toExtract.size / d.ISO_COPY_BUFFER_SIZE) d.ISO_COPY_BUFFER_SIZE
          ++ (if toExtract.size % d.ISO_COPY_BUFFER_SIZE ≠ 0
              then [toExtract.size % d.ISO_COPY_BUFFER_SIZE] else []) ∧
      (chunks.map List.length).sum = toExtract.size := by
  have hceil : (toExtract.size + d.ISO_COPY_BUFFER_SIZE - 1) / d.ISO_COPY_BUFFER_SIZE < 2 ^ 32 :=
    lt_of_le_of_lt (ceil_div_le _ _ hb) hfit
  have hnums := numBytesToCopy_map d toExtract.size hb hceil
  have h := (ExtractFileHelper.fold_stream d toExtract.size (sectionsPerFile d toExtract.size)
    totalProgress progress (List.range (sectionsPerFile d toExtract.size))
    { iso := { st.iso with io := st.iso.io.SetPosition (SectorToAddress d st.iso toExtract.sector) },
      written := [], curProgress := st.curProgress, calls := st.out.calls }).1
  rw [hnums, List.nil_append] at h
  refine ⟨_, by simp only [ExtractFileHelper]; rw [h], ?_, ?_, ?_⟩
  · rw [join_chunksFrom, chunkSizes_sum]
    rfl
  · rw [chunksFrom_lengths]
    rfl
  · rw [chunksFrom_lengths, chunkSizes_sum]

/-- C16, evaluated: a file of `0x13` bytes at sector 1 of the sample image is
written as a buffer of `0x10` bytes and one of 3. -/
theorem ExtractFileHelper_content_witness :
    0 < sampleDecls.ISO_COPY_BUFFER_SIZE ∧
    (ExtractFileHelper sampleDecls "out".toList { sampleFile "z" 0x13 with sector := 1 } false 0
        { iso := sampleISO, out := ⟨[], [], []⟩, curProgress := none }).out.files
      = [("out/z".toList,
          [[0, 0, 0, 0, 5, 0, 0, 0, 4, 0, 0, 0, 0, 1, 98, 255], [0, 0, 0]])] ∧
    ∃ chunks, (ExtractFileHelper sampleDecls "out".toList { sampleFile "z" 0x13 with sector := 1 }
        false 0 { iso := sampleISO, out := ⟨[], [], []⟩, curProgress := none }).out.files
        = [] ++ [("out".toList ++ "/".toList ++ "z".toList, chunks)] ∧
      chunks.flatten
        = (List.range 0x13).map (fun i => sampleISO.io.data (SectorToAddress sampleDecls sampleISO 1 + i)) ∧
      chunks.map List.length = List.replicate (0x13 / 0x10) 0x10 ++ [3] ∧
      (chunks.map List.length).sum = 0x13 :=
  ⟨by decide, by decide,
   ExtractFileHelper_content sampleDecls "out".toList { sampleFile "z" 0x13 with sector := 1 }
     false 0 { iso := sampleISO, out := ⟨[], [], []⟩, curProgress := none } (by decide) (by decide)⟩

/-! ## Extraction of a tree: theorems -/

theorem ExtractFileHelper_calls (d : Decls) (outDirectory : List Char) (toExtract : GdfxFileEntry)
    (totalProgress : Nat) (st : ExtractState) (c : Nat) (hb : 0 < d.ISO_COPY_BUFFER_SIZE)
    (hc : st.curProgress = some c)
    (hfit : c + (toExtract.size + d.ISO_COPY_BUFFER_SIZE - 1) / d.ISO_COPY_BUFFER_SIZE < 2 ^ 32) :
    (ExtractFileHelper d outDirectory toExtract true totalProgress st).out.calls
      = st.out.calls ++ (List.range
          ((toExtract.size + d.ISO_COPY_BUFFER_SIZE - 1) / d.ISO_COPY_BUFFER_SIZE)).map
            (fun j => (c + j + 1, totalProgress)) ∧
    (ExtractFileHelper d outDirectory toExtract true totalProgress st).curProgress
      = some (c + (toExtract.size + d.ISO_COPY_BUFFER_SIZE - 1) / d.ISO_COPY_BUFFER_SIZE) := by
  have hT := sectionsPerFile_eq d toExtract.size hb (by omega)
  have h := ExtractFileHelper.fold_calls d toExtract.size (sectionsPerFile d toExtract.size)
    totalProgress (List.range (sectionsPerFile d toExtract.size))
    { iso := { st.iso with io := st.iso.io.SetPosition (SectorToAddress d st.iso toExtract.sector) },
      written := [], curProgress := st.curProgress, calls := st.out.calls } c hc
    (by rw [List.length_range, hT]; exact hfit)
  rw [List.length_range, hT] at h
  refine ⟨?_, ?_⟩
  · simp only [ExtractFileHelper]; rw [hT]; exact h.1
  · simp only [ExtractFileHelper]; rw [hT]; exact h.2

mutual
theorem GetTotalCopyIterations.entry_eq (d : Decls) (hb : 0 < d.ISO_COPY_BUFFER_SIZE) :
    ∀ e : GdfxFileEntry, copyUnits.entry d e < 2 ^ 32 →
      GetTotalCopyIterations.entry d e = copyUnits.entry d e
  | ⟨_, _, attributes, _, size, _, _, _, _, files⟩, h => by
    simp only [GetTotalCopyIterations.entry, copyUnits.entry] at h ⊢
    split
    · rename_i hd
      rw [if_pos hd] at h
      have := GetTotalCopyIterations.from_eq d hb files 0 (by omega)
      rw [this, Nat.zero_add]
    · rename_i hd
      rw [if_neg hd] at h
      exact sectionsPerFile_eq d size hb h
theorem GetTotalCopyIterations.from_eq (d : Decls) (hb : 0 < d.ISO_COPY_BUFFER_SIZE) :
    ∀ (l : List GdfxFileEntry) (acc : Nat), acc + copyUnits.list d l < 2 ^ 32 →
      GetTotalCopyIterations.from d acc l = acc + copyUnits.list d l
  | [], acc, _ => by simp [GetTotalCopyIterations.from, copyUnits.list]
  | e :: es, acc, h => by
    simp only [copyUnits.list] at h
    have he := GetTotalCopyIterations.entry_eq d hb e (by omega)
    have hmod : toDWORD (acc + copyUnits.entry d e) = acc + copyUnits.entry d e :=
      Nat.mod_eq_of_lt (by omega)
    have hes := GetTotalCopyIterations.from_eq d hb es (acc + copyUnits.entry d e) (by omega)
    simp only [GetTotalCopyIterations.from, copyUnits.list, he, hmod, hes]
    omega
end

theorem progress_calls_append (c a b total : Nat) :
    (List.range a).map (fun j => (c + j + 1, total))
        ++ (List.range b).map (fun j => (c + a + j + 1, total))
      = (List.range (a + b)).map (fun j => (c + j + 1, total)) := by
  rw [List.range_add, List.map_append, List.map_map]
  congr 1
  apply List.map_congr_left
  intro j _
  simp only [Function.comp, Prod.mk.injEq, and_true]
  omega

mutual
theorem ExtractAllHelper.entry_calls (d : Decls) (outDirectory : List Char) (totalProgress : Nat)
    (hb : 0 < d.ISO_COPY_BUFFER_SIZE) :
    ∀ (e : GdfxFileEntry) (st : ExtractState) (c : Nat), st.curProgress = some c →
      c + copyUnits.entry d e < 2 ^ 32 →
      (ExtractAllHelper.entry d outDirectory true totalProgress e st).out.calls
        = st.out.calls ++ (List.range (copyUnits.entry d e)).map
            (fun j => (c + j + 1, totalProgress)) ∧
      (ExtractAllHelper.entry d outDirectory true totalProgress e st).curProgress
        = some (c + copyUnits.entry d e)
  | ⟨name, nameLen, attributes, sector, size, address, fileIndex, filePath, magic, files⟩,
    st, c, hc, h => by
    simp only [ExtractAllHelper.entry, copyUnits.entry] at h ⊢
    split
    · rename_i hd
      rw [if_pos hd] at h
      exact ExtractAllHelper.from_calls d outDirectory totalProgress hb files _ c hc h
    · rename_i hd
      rw [if_neg hd] at h
      exact ExtractFileHelper_calls d _ _ totalProgress st c hb hc h
theorem ExtractAllHelper.from_calls (d : Decls) (outDirectory : List Char) (totalProgress : Nat)
    (hb : 0 < d.ISO_COPY_BUFFER_SIZE) :
    ∀ (l : List GdfxFileEntry) (st : ExtractState) (c : Nat), st.curProgress = some c →
      c + copyUnits.list d l < 2 ^ 32 →
      (ExtractAllHelper.from d outDirectory true totalProgress l st).out.calls
        = st.out.calls ++ (List.range (copyUnits.list d l)).map
            (fun j => (c + j + 1, totalProgress)) ∧
      (ExtractAllHelper.from d outDirectory true totalProgress l st).curProgress
        = some (c + copyUnits.list d l)
  | [], st, c, hc, _ => by simp [ExtractAllHelper.from, copyUnits.list, hc]
  | e :: es, st, c, hc, h => by
    simp only [copyUnits.list] at h
    have he := ExtractAllHelper.entry_calls d outDirectory totalProgress hb e st c hc (by omega)
    have hes := ExtractAllHelper.from_calls d outDirectory totalProgress hb es
      (ExtractAllHelper.entry d outDirectory true totalProgress e st)
      (c + copyUnits.entry d e) he.2 (by omega)
    simp only [ExtractAllHelper.from, copyUnits.list]
    refine ⟨?_, ?_⟩
    · rw [hes.1, he.1, List.append_assoc, progress_calls_append]
    · rw [hes.2, Nat.add_assoc]
end

/-- C15: for a tree of any depth whose files need `U` copy units in all,
`U < 2^32`, `ExtractAll` invokes the callback exactly `U` times, the `j`-th
time with `(j, U)`, and `U` is what `GetTotalCopyIterations` returns for the
root. -/
theorem ExtractAll_progress (d : Decls) (iso : ISO) (out : Outside) (outDirectory : List Char)
    (hb : 0 < d.ISO_COPY_BUFFER_SIZE) (hU : copyUnits.list d iso.root < 2 ^ 32) :
    (ExtractAll d iso out outDirectory true).out.calls
      = out.calls ++ (List.range (copyUnits.list d iso.root)).map
          (fun j => (j + 1, copyUnits.list d iso.root)) ∧
    GetTotalCopyIterations d iso.root = copyUnits.list d iso.root := by
  have hT : GetTotalCopyIterations d iso.root = copyUnits.list d iso.root := by
    have := GetTotalCopyIterations.from_eq d hb iso.root 0 (by omega)
    rw [GetTotalCopyIterations, this, Nat.zero_add]
  refine ⟨?_, hT⟩
  have h := (ExtractAllHelper.from_calls d outDirectory (GetTotalCopyIterations d iso.root) hb
    iso.root { iso := iso, out := out, curProgress := some 0 } 0 rfl (by omega)).1
  simp only [Nat.zero_add, hT] at h
  simp only [ExtractAll, ExtractAllHelper, hT]
  exact h
/-- C15, evaluated on a tree two directories deep that needs 5 copy units. -/
theorem ExtractAll_progress_witness :
    0 < sampleDecls.ISO_COPY_BUFFER_SIZE ∧
    copyUnits.list sampleDecls (isoWithRoot sampleDeepTree).root = 5 ∧
    (ExtractAll sampleDecls (isoWithRoot sampleDeepTree) ⟨[], [], []⟩ "out".toList true).out.calls
      = [(1, 5), (2, 5), (3, 5), (4, 5), (5, 5)] ∧
    GetTotalCopyIterations sampleDecls (isoWithRoot sampleDeepTree).root = 5 := by
  have h := ExtractAll_progress sampleDecls (isoWithRoot sampleDeepTree) ⟨[], [], []⟩ "out".toList
    (by decide) (by decide)
  have hU : copyUnits.list sampleDecls (isoWithRoot sampleDeepTree).root = 5 := by decide
  rw [hU] at h
  exact ⟨by decide, hU, h.1, h.2⟩

/-! ## Title: theorems -/

theorem isPackageMagic_iff (s : StfsDecls) (e : GdfxFileEntry) :
    isPackageMagic s e = true ↔ (e.magic = s.CON ∨ e.magic = s.LIVE ∨ e.magic = s.PIRS) := by
  simp [isPackageMagic]

theorem GetTitleName.scan_opened (s : StfsDecls) (P : GdfxFileEntry → Prop)
    (hP : ∀ e, isPackageMagic s e = true → P e) :
    ∀ (l : List GdfxFileEntry) (iso : ISO) (opened : List GdfxFileEntry),
      (∀ x ∈ opened, P x) → ∀ x ∈ (GetTitleName.scan s l iso opened).opened, P x := by
  intro l
  induction l with
  | nil => intro iso opened h; simpa [GetTitleName.scan] using h
  | cons e es ih =>
    intro iso opened h
    have hpush : ∀ x ∈ opened ++ [e], isPackageMagic s e = true → P x := by
      intro x hx he
      rcases List.mem_append.mp hx with hx | hx
      · exact h x hx
      · have : x = e := by simpa using hx
        rw [this]; exact hP e he
    simp only [GetTitleName.scan]
    split
    · rename_i he
      split
      · intro x hx
        exact hpush x hx he
      · exact ih _ _ (fun x hx => hpush x hx he)
    · exact ih _ _ h

theorem GetTitleName.scan_skip (s : StfsDecls) (data : Nat → Nat)
    (title : GdfxFileEntry → List Char)
    (hpure : ∀ io e, io.data = data → (s.StfsPackage io e).1 = title e)
    (hdata : ∀ io e, (s.StfsPackage io e).2.data = io.data) (rest : List GdfxFileEntry) :
    ∀ (pre : List GdfxFileEntry) (iso : ISO) (opened : List GdfxFileEntry),
      iso.io.data = data →
      (∀ x ∈ pre, ¬ (isPackageMagic s x = true ∧ title x ≠ [])) →
      ∃ iso', iso'.titleName = iso.titleName ∧ iso'.io.data = data ∧
        GetTitleName.scan s (pre ++ rest) iso opened
          = GetTitleName.scan s rest iso' (opened ++ pre.filter (isPackageMagic s)) := by
  intro pre
  induction pre with
  | nil => intro iso opened hd _; exact ⟨iso, rfl, hd, by simp⟩
  | cons x xs ih =>
    intro iso opened hd h
    have hx := h x (by simp)
    have hxs : ∀ y ∈ xs, ¬ (isPackageMagic s y = true ∧ title y ≠ []) :=
      fun y hy => h y (by simp [hy])
    by_cases hp : isPackageMagic s x = true
    · have ht : title x = [] := by
        by_contra hne
        exact hx ⟨hp, hne⟩
      obtain ⟨iso', h1, hd', h2⟩ := ih { iso with io := (s.StfsPackage iso.io x).2 }
        (opened ++ [x]) (by rw [← hd]; exact hdata iso.io x) hxs
      refine ⟨iso', h1, hd', ?_⟩
      simp only [List.cons_append, GetTitleName.scan, hp, if_true, hpure iso.io x hd, ht,
        List.length_nil, ne_eq, not_true_eq_false, if_false, List.filter_cons]
      exact h2.trans (by rw [List.append_assoc]; rfl)
    · obtain ⟨iso', h1, hd', h2⟩ := ih iso opened hd hxs
      refine ⟨iso', h1, hd', ?_⟩
      simp only [List.cons_append, GetTitleName.scan, hp, List.filter_cons]
      exact h2

/-- C17: with no cached title, and a collaborator whose report for an entry
depends on the bytes of the image and not on where the stream stands,
`GetTitleName` returns the title reported for the first entry of the root, in
list order, whose magic is `CON`, `LIVE` or `PIRS` and whose reported title is
not empty; the entries handed to the collaborator are the entries with one of
these three magics up to and including that one, and none behind it; if there
is no such entry the result is the empty string, and every entry with one of
the three magics was handed over. Whatever the collaborator does, no entry with
another magic is handed to it. -/
theorem GetTitleName_first_package (s : StfsDecls) (iso : ISO)
    (title : GdfxFileEntry → List Char)
    (hpure : ∀ io e, io.data = iso.io.data → (s.StfsPackage io e).1 = title e)
    (hdata : ∀ io e, (s.StfsPackage io e).2.data = io.data)
    (hno : iso.titleName = []) :
    (∀ pre e post, iso.root = pre ++ e :: post →
      ((e.magic = s.CON ∨ e.magic = s.LIVE ∨ e.magic = s.PIRS) ∧ title e ≠ []) →
      (∀ x ∈ pre, ¬ ((x.magic = s.CON ∨ x.magic = s.LIVE ∨ x.magic = s.PIRS) ∧ title x ≠ [])) →
      (GetTitleName s iso).title = title e ∧
      (GetTitleName s iso).opened
        = pre.filter (fun x => decide (x.magic = s.CON ∨ x.magic = s.LIVE ∨ x.magic = s.PIRS))
          ++ [e]) ∧
    ((∀ x ∈ iso.root,
        ¬ ((x.magic = s.CON ∨ x.magic = s.LIVE ∨ x.magic = s.PIRS) ∧ title x ≠ [])) →
      (GetTitleName s iso).title = [] ∧
      (GetTitleName s iso).opened
        = iso.root.filter
            (fun x => decide (x.magic = s.CON ∨ x.magic = s.LIVE ∨ x.magic = s.PIRS))) ∧
    (∀ x ∈ (GetTitleName s iso).opened,
      x.magic = s.CON ∨ x.magic = s.LIVE ∨ x.magic = s.PIRS) := by
  have hstart : GetTitleName s iso = GetTitleName.scan s iso.root iso [] := by
    simp [GetTitleName, hno]
  have hfilter : isPackageMagic s
      = fun x => decide (x.magic = s.CON ∨ x.magic = s.LIVE ∨ x.magic = s.PIRS) := rfl
  refine ⟨?_, ?_, ?_⟩
  · intro pre e post hroot he hpre
    have he' : isPackageMagic s e = true := (isPackageMagic_iff s e).mpr he.1
    obtain ⟨iso', _, hd', h2⟩ := GetTitleName.scan_skip s iso.io.data title hpure hdata
      (e :: post) pre iso [] rfl
      (fun x hx hc => hpre x hx ⟨(isPackageMagic_iff s x).mp hc.1, hc.2⟩)
    have hlen : (title e).length ≠ 0 := by
      intro h0
      exact he.2 (List.length_eq_zero.mp h0)
    rw [hstart, hroot, h2, ← hfilter]
    simp only [GetTitleName.scan, he', if_true, hpure iso'.io e hd', hlen, ne_eq,
      not_false_eq_true, List.nil_append]
    exact ⟨trivial, trivial⟩
  · intro hall
    obtain ⟨iso', h1, _, h2⟩ := GetTitleName.scan_skip s iso.io.data title hpure hdata
      [] iso.root iso [] rfl
      (fun x hx hc => hall x hx ⟨(isPackageMagic_iff s x).mp hc.1, hc.2⟩)
    rw [List.append_nil] at h2
    rw [hstart, h2, ← hfilter]
    simp [GetTitleName.scan, h1, hno]
  · rw [hstart]
    exact GetTitleName.scan_opened s _ (fun e he => (isPackageMagic_iff s e).mp he)
      iso.root iso [] (fun x hx => nomatch hx)

/-- C17, evaluated: of the packages `p`, `q`, `r` the first with a title in the
image is `q`, whose title is `Halo`; `a` is not handed over although its
content holds text, and neither is `r`. -/
theorem GetTitleName_first_package_witness :
    samplePackageISO.titleName = [] ∧
    (∀ io e, io.data = samplePackageISO.io.data →
      (sampleStfs.StfsPackage io e).1 = sampleTitle samplePackageISO.io.data e) ∧
    (∀ io e, (sampleStfs.StfsPackage io e).2.data = io.data) ∧
    (GetTitleName sampleStfs samplePackageISO).title = "Halo".toList ∧
    (GetTitleName sampleStfs samplePackageISO).opened.map (fun e => e.name)
      = ["p".toList, "q".toList] := by
  have hpure : ∀ io e, io.data = samplePackageISO.io.data →
      (sampleStfs.StfsPackage io e).1 = sampleTitle samplePackageISO.io.data e := by
    intro io e h
    simp only [sampleStfs, sampleTitle, BaseStream.ReadBytes, BaseStream.SetPosition,
      BaseStream.bytesAt, h]
  have h := (GetTitleName_first_package sampleStfs samplePackageISO
    (sampleTitle samplePackageISO.io.data) hpure (fun _ _ => rfl) rfl).1
    [{ sampleFile "a" 10 with sector := 0, magic := 0 },
     { sampleFile "p" 8 with sector := 1, magic := 0x434F4E20 }]
    { sampleFile "q" 8 with sector := 2, magic := 0x4C495645 }
    [{ sampleFile "r" 8 with sector := 3, magic := 0x50495253 }] rfl (by decide) (by decide)
  have ht : sampleTitle samplePackageISO.io.data
      { sampleFile "q" 8 with sector := 2, magic := 0x4C495645 } = "Halo".toList := by decide
  refine ⟨rfl, hpure, fun _ _ => rfl, ?_, ?_⟩
  · rw [h.1, ht]
  · rw [h.2]
    decide

/-! ## Directory listing: a rule for the loop -/

theorem GetFileMagic_entry (d : Decls) (iso : ISO) (c : GdfxFileEntry) :
    (GetFileMagic d iso c).2.1 = { c with magic := (GetFileMagic d iso c).1 } := by
  unfold GetFileMagic
  simp only []
  split
  · split <;> rfl
  · rfl

theorem ReadFileListing.advance_next {d : Decls} {iso : ISO} {L : Locals} {cur : GdfxFileEntry}
    {A : Listing ⊕ (ISO × Locals)} (h : ReadFileListing.advance d iso L cur = A) :
    (∃ iso', A = .inl (ReadFileListing.finish d iso'
        (L.entryList ++ [(GetFileMagic d iso { cur with filePath := L.path }).2.1]))) ∨
    (∃ next, A = .inr next ∧
        next.2.entryList = L.entryList ++ [(GetFileMagic d iso { cur with filePath := L.path }).2.1] ∧
        next.2.current.files = [] ∧ next.2.path = L.path) := by
  subst h
  unfold ReadFileListing.advance
  simp only []
  split
  · split
    · exact Or.inl ⟨_, rfl⟩
    · exact Or.inr ⟨_, rfl, rfl, rfl, rfl⟩
  · exact Or.inr ⟨_, rfl, rfl, rfl, rfl⟩

/-- A rule for `ReadFileListing`: a property `I path l` of a listing and its
path holds of the listing returned if it holds of the empty listing, is kept by
a permutation, and is kept when an entry with that path is appended whose
children are either none or, for a directory of non-zero size, a listing with
the property for the path of the directory. -/
theorem ReadFileListing.loop_rule (d : Decls)
    (hs : SortsBy d.std_sort (DirectoryFirstCompareGdfxEntries d))
    (I : List Char → List GdfxFileEntry → Prop)
    (hnil : ∀ path, I path [])
    (hpush : ∀ path l c, I path l → c.filePath = path →
      (c.files = [] ∨
        (isDirectory d c = true ∧ c.size ≠ 0 ∧ I (path ++ c.name ++ ['/']) c.files)) →
      I path (l ++ [c]))
    (hperm : ∀ path l l', l'.Perm l → I path l → I path l') :
    ∀ (fuel : Nat) (iso : ISO) (L : Locals) (r : Listing),
      ReadFileListing.loop d fuel iso L = some r →
      I L.path L.entryList → L.current.files = [] → I L.path r.entryList := by
  intro fuel
  induction fuel with
  | zero =>
    intro iso L r h
    simp [ReadFileListing.loop] at h
  | succ fuel ih =>
    intro iso L r h hI hfiles
    have hfin : ∀ iso' l, I L.path l → I L.path (ReadFileListing.finish d iso' l).entryList :=
      fun iso' l hl => hperm _ _ _ (hs l).1 hl
    rw [ReadFileListing.loop] at h
    simp only [] at h
    split at h
    · cases h
      exact hfin _ _ hI
    · split at h
      · cases h
        exact hfin _ _ hI
      · split at h
        · rename_i hdir
          split at h
          · cases h
          · rename_i inner hinner
            have hin := ih _ _ _ hinner (by
              simp only [ReadFileListing.enter, hfiles]; exact hnil _) rfl
            simp only [ReadFileListing.enter] at hin
            generalize hA : ReadFileListing.advance d _ _ _ = A at h
            have hp : ∀ iso', I L.path (L.entryList ++ [(GetFileMagic d iso'
                { ({ L.current with
                    address := iso.io.GetPosition, fileIndex := 0,
                    sector := (d.GdfxReadFileEntry iso.io).2.1.sector,
                    size := (d.GdfxReadFileEntry iso.io).2.1.size,
                    attributes := (d.GdfxReadFileEntry iso.io).2.1.attributes,
                    nameLen := (d.GdfxReadFileEntry iso.io).2.1.nameLen,
                    name := (d.GdfxReadFileEntry iso.io).2.1.name,
                    files := inner.entryList } : GdfxFileEntry) with filePath := L.path }).2.1]) := by
              intro iso'
              refine hpush _ _ _ hI ?_ (Or.inr ⟨?_, ?_, ?_⟩)
              · rw [GetFileMagic_entry]
              · rw [GetFileMagic_entry]; exact hdir.1
              · rw [GetFileMagic_entry]; exact hdir.2
              · rw [GetFileMagic_entry]; exact hin
            rcases ReadFileListing.advance_next hA with ⟨iso', rfl⟩ | ⟨next, rfl, hl, hf, hpath⟩
            · cases h
              exact hfin _ _ (hp _)
            · have := ih _ _ _ h (by rw [hl, hpath]; exact hp _) hf
              rw [hpath] at this
              exact this
        · generalize hA : ReadFileListing.advance d _ _ _ = A at h
          have hp : ∀ iso', I L.path (L.entryList ++ [(GetFileMagic d iso'
              { ({ L.current with
                  address := iso.io.GetPosition, fileIndex := 0,
                  sector := (d.GdfxReadFileEntry iso.io).2.1.sector,
                  size := (d.GdfxReadFileEntry iso.io).2.1.size,
                  attributes := (d.GdfxReadFileEntry iso.io).2.1.attributes,
                  nameLen := (d.GdfxReadFileEntry iso.io).2.1.nameLen,
                  name := (d.GdfxReadFileEntry iso.io).2.1.name } : GdfxFileEntry)
                with filePath := L.path }).2.1]) := by
            intro iso'
            refine hpush _ _ _ hI ?_ (Or.inl ?_)
            · rw [GetFileMagic_entry]
            · rw [GetFileMagic_entry]; exact hfiles
          rcases ReadFileListing.advance_next hA with ⟨iso', rfl⟩ | ⟨next, rfl, hl, hf, hpath⟩
          · cases h
            exact hfin _ _ (hp _)
          · have := ih _ _ _ h (by rw [hl, hpath]; exact hp _) hf
            rw [hpath] at this
            exact this
/-! ## Directory listing: paths and children -/

/-- C19: when `ReadFileListing(list, sector, size, path)` completes on a fresh
list, every entry of the listing has `filePath` equal to `path` (the empty
string for the root), and every child of every entry `p` of the tree has
`filePath` equal to `p.filePath + p.name + "/"`. -/
theorem ReadFileListing_paths (d : Decls)
    (hs : SortsBy d.std_sort (DirectoryFirstCompareGdfxEntries d)) (fuel : Nat) (iso : ISO)
    (sector : Nat) (size : Int) (path : List Char) (r : Listing)
    (h : ReadFileListing d fuel iso [] sector size path = some r) :
    (∀ e ∈ r.entryList, e.filePath = path) ∧
    (∀ p, InTree p r.entryList → ∀ c ∈ p.files, c.filePath = p.filePath ++ p.name ++ ['/']) := by
  unfold ReadFileListing at h
  refine ReadFileListing.loop_rule d hs
    (fun path l => (∀ e ∈ l, e.filePath = path) ∧
      (∀ p, InTree p l → ∀ c ∈ p.files, c.filePath = p.filePath ++ p.name ++ ['/']))
    ?_ ?_ ?_ fuel _ _ r h ?_ rfl
  · intro path
    exact ⟨fun e he => (nomatch he), fun p hp => absurd hp (not_InTree_nil p)⟩
  · intro path l c hI hc hfiles
    refine ⟨?_, ?_⟩
    · intro e he
      rcases List.mem_append.mp he with he | he
      · exact hI.1 e he
      · have : e = c := by simpa using he
        rw [this, hc]
    · intro p hp ch hch
      rcases (InTree_append_singleton p c l).mp hp with hp | rfl | hp
      · exact hI.2 p hp ch hch
      · rcases hfiles with hnone | ⟨_, _, hsub⟩
        · rw [hnone] at hch; cases hch
        · rw [hc]; exact hsub.1 ch hch
      · rcases hfiles with hnone | ⟨_, _, hsub⟩
        · rw [hnone] at hp; exact absurd hp (not_InTree_nil p)
        · exact hsub.2 p hp ch hch
  · intro path l l' hperm hI
    exact ⟨fun e he => hI.1 e (hperm.mem_iff.mp he),
      fun p hp => hI.2 p ((InTree_congr (fun x => hperm.mem_iff) p).mp hp)⟩
  · exact ⟨fun e he => (nomatch he), fun p hp => absurd hp (not_InTree_nil p)⟩

/-- C19, evaluated on the sample image, read as the root with the empty path. -/
theorem ReadFileListing_paths_witness :
    SortsBy sampleDecls.std_sort (DirectoryFirstCompareGdfxEntries sampleDecls) ∧
    ∃ r, ReadFileListing sampleDecls 8 sampleISO [] 1 0x40 [] = some r ∧
      r.entryList.map (fun e => (e.name, e.filePath))
        = [("d".toList, []), ("e".toList, []), ("b".toList, [])] ∧
      r.entryList.map (fun e => e.files.map (fun c => (c.name, c.filePath)))
        = [[("z".toList, "d/".toList), ("y".toList, "d/".toList)], [], []] ∧
      (∀ e ∈ r.entryList, e.filePath = []) ∧
      (∀ p, InTree p r.entryList → ∀ c ∈ p.files, c.filePath = p.filePath ++ p.name ++ ['/']) := by
  have hv : (ReadFileListing sampleDecls 8 sampleISO [] 1 0x40 []).map
      (fun r => (r.entryList.map (fun e => (e.name, e.filePath)),
        r.entryList.map (fun e => e.files.map (fun c => (c.name, c.filePath)))))
      = some ([("d".toList, []), ("e".toList, []), ("b".toList, [])],
          [[("z".toList, "d/".toList), ("y".toList, "d/".toList)], [], []]) := by
    decide
  obtain ⟨r, hr, hnames⟩ := Option.map_eq_some'.mp hv
  exact ⟨stableSort_sortsBy sampleDecls, r, hr, congrArg Prod.fst hnames,
    congrArg Prod.snd hnames,
    ReadFileListing_paths sampleDecls (stableSort_sortsBy sampleDecls) 8 sampleISO 1 0x40 [] r hr⟩

/-- C20: when `ReadFileListing` completes on a fresh list, every entry of the
tree without the directory bit, and every entry of size 0, has no children,
although the one record `current` serves every turn of the loop. -/
theorem ReadFileListing_files_childless (d : Decls)
    (hs : SortsBy d.std_sort (DirectoryFirstCompareGdfxEntries d)) (fuel : Nat) (iso : ISO)
    (sector : Nat) (size : Int) (path : List Char) (r : Listing)
    (h : ReadFileListing d fuel iso [] sector size path = some r) :
    ∀ e, InTree e r.entryList → (isDirectory d e = false ∨ e.size = 0) → e.files = [] := by
  unfold ReadFileListing at h
  refine ReadFileListing.loop_rule d hs
    (fun _ l => ∀ e, InTree e l → (isDirectory d e = false ∨ e.size = 0) → e.files = [])
    ?_ ?_ ?_ fuel _ _ r h ?_ rfl
  · intro _ e he
    exact absurd he (not_InTree_nil e)
  · intro path l c hI _ hfiles e he hcond
    rcases (InTree_append_singleton e c l).mp he with he | rfl | he
    · exact hI e he hcond
    · rcases hfiles with hnone | ⟨hdir, hsize, _⟩
      · exact hnone
      · rcases hcond with hc | hc
        · rw [hdir] at hc; cases hc
        · exact absurd hc hsize
    · rcases hfiles with hnone | ⟨_, _, hsub⟩
      · rw [hnone] at he; exact absurd he (not_InTree_nil e)
      · exact hsub e he hcond
  · intro _ l l' hperm hI e he
    exact hI e ((InTree_congr (fun x => hperm.mem_iff) e).mp he)
  · intro e he
    exact absurd he (not_InTree_nil e)

/-- C20, evaluated on the sample image: the file `b` is read before the
directory `d`, whose two children are read into `current`, and the directory
`e` after it; `b`, `e` and the children of `d` have no children. -/
theorem ReadFileListing_files_childless_witness :
    SortsBy sampleDecls.std_sort (DirectoryFirstCompareGdfxEntries sampleDecls) ∧
    ∃ r, ReadFileListing sampleDecls 8 sampleISO [] 1 0x40 [] = some r ∧
      r.pushed.map (fun e => (e.name, isDirectory sampleDecls e, e.files.length))
        = [("b".toList, false, 0), ("d".toList, true, 2), ("e".toList, true, 0)] ∧
      ∀ e, InTree e r.entryList → (isDirectory sampleDecls e = false ∨ e.size = 0) →
        e.files = [] := by
  have hv : (ReadFileListing sampleDecls 8 sampleISO [] 1 0x40 []).map
      (fun r => r.pushed.map (fun e => (e.name, isDirectory sampleDecls e, e.files.length)))
      = some [("b".toList, false, 0), ("d".toList, true, 2), ("e".toList, true, 0)] := by
    decide
  obtain ⟨r, hr, hnames⟩ := Option.map_eq_some'.mp hv
  exact ⟨stableSort_sortsBy sampleDecls, r, hr, hnames,
    ReadFileListing_files_childless sampleDecls (stableSort_sortsBy sampleDecls) 8 sampleISO 1
      0x40 [] r hr⟩

/-! ## Directory listing: the byte budget -/

/-- C18, at a listing announced as 10 bytes long in which records of 16 bytes
follow one another (the root listing of the sample image, read with size 10):
after the first record `bytesLeft` is `10 - 16` as a `DWORD`, which is
`4294967290` and not 0, so the loop goes on; three records are appended, their
strides add up to 48, and the second and third start 16 and 32 bytes into the
listing, beyond its 10 bytes. -/
theorem ReadFileListing_budget_wraps :
    (ReadFileListing.enter sampleDecls sampleISO [] 1 10 []).2.bytesLeft = 10 ∧
    ReadFileListing.bytesLeftAfter (ReadFileListing.advance sampleDecls sampleISO
        (ReadFileListing.enter sampleDecls sampleISO [] 1 10 []).2
        { sampleFile "b" 4 with sector := 5, address := 0x40 }) = some 4294967290 ∧
    (ReadFileListing sampleDecls 8 sampleISO [] 1 10 []).map
        (fun r => r.pushed.map (fun e => (e.name, e.address - 0x40, entryStride e.nameLen)))
      = some [("b".toList, 0, 16), ("d".toList, 16, 16), ("e".toList, 32, 16)] ∧
    (ReadFileListing sampleDecls 8 sampleISO [] 1 10 []).map
        (fun r => (r.pushed.map (fun e => entryStride e.nameLen)).sum) = some 48 := by
  decide

/-! ## Directory listing: the records on disc -/

end ISO
